import Mathlib

/-!
Verification of the league-match-analyzer ingestion core.

This file is a shallow embedding, in Lean 4, of the parts of the repository
that the verified claims are about:

- services/api/app/services/rate_limiter.py   (RiotRateLimiter)
- services/api/app/services/riot_match_id.py  (normalize_match_id)
- services/api/app/services/match_sync.py     (upsert_matches_for_riot_account)
- services/api/app/services/enqueue_match_details.py (enqueue_missing_detail_jobs)
- services/api/app/jobs/match_ingestion.py    (fetch_match_details_job)
- services/api/app/services/riot_api_client.py (RiotApiClient._get_json)

Modelling conventions:
- Python floats (timestamps, waits) are modelled as exact rationals.
- Python ints are modelled as Int (Nat where the source value is a count).
- Python strings that are only compared for equality (bucket names, statuses)
  are Lean Strings; strings that are parsed or built character by character
  (match ids, header values, job keys) are lists of characters.
- The Redis sorted set behind a bucket is the list of scores (timestamps) of
  its members; member ids are irrelevant to every claim and are dropped.
  Key TTLs only affect abandoned buckets and are not modelled.
- Async suspension points (asyncio.sleep, awaited Redis calls) are modelled by
  explicit oracles for the clock and for random.random().
-/

/-- Match ids, header values and job keys are parsed or concatenated
character by character, so they are modelled as character lists. -/
abbrev GameId := List Char

/-- Configuration for a single rate limit bucket
(class RateLimitConfig in rate_limiter.py). -/
structure RateLimitConfig where
  max_requests : ℤ
  window_seconds : ℤ
deriving DecidableEq, Repr

/-- The mutable state of RiotRateLimiter together with the Redis store it
drives. DEFAULT_LIMITS and METHOD_LIMITS are insertion-ordered dicts, so they
are association lists; the store maps a bucket key to the scores of the
members of its sorted set; retryAfter is the _retry_after field. -/
structure LimiterState where
  defaultLimits : List (String × RateLimitConfig)
  methodLimits : List (String × RateLimitConfig)
  store : List (String × List ℚ)
  retryAfter : ℚ
deriving DecidableEq

namespace RiotRateLimiter

def MAX_RETRIES : ℕ := 5

def BASE_BACKOFF_SECONDS : ℚ := 1

def MAX_BACKOFF_SECONDS : ℚ := 60

def JITTER_FACTOR : ℚ := 1 / 2

end RiotRateLimiter

/-- The limiter state at process start: the class-level DEFAULT_LIMITS and
METHOD_LIMITS dicts of rate_limiter.py, an empty store, no cooldown. -/
def initialLimiter : LimiterState where
  defaultLimits := [("app_short", ⟨20, 1⟩), ("app_long", ⟨100, 120⟩)]
  methodLimits :=
    [("account", ⟨20, 1⟩), ("summoner", ⟨20, 1⟩), ("rank", ⟨20, 1⟩),
     ("match_ids", ⟨2000, 10⟩), ("match_detail", ⟨2000, 10⟩)]
  store := []
  retryAfter := 0

/-- DEFAULT_LIMITS.get(bucket) or METHOD_LIMITS.get(bucket). -/
def lookupLimit (st : LimiterState) (bucket : String) : Option RateLimitConfig :=
  match st.defaultLimits.lookup bucket with
  | some cfg => some cfg
  | none => st.methodLimits.lookup bucket

/-- Scores currently stored under a bucket key (empty when the key is absent,
as for a fresh Redis key). -/
def bucketEntries (st : LimiterState) (bucket : String) : List ℚ :=
  (st.store.lookup bucket).getD []

/-- Overwrite the member list of one Redis key, creating it when absent
(zadd creates missing keys). -/
def setStore (store : List (String × List ℚ)) (bucket : String) (es : List ℚ) :
    List (String × List ℚ) :=
  match store with
  | [] => [(bucket, es)]
  | (k, v) :: rest =>
      if k = bucket then (k, es) :: rest else (k, v) :: setStore rest bucket es

/-- Replace the member list of one Redis key when the key exists; removal by
zremrangebyscore never creates a key. -/
def evictStore (store : List (String × List ℚ)) (bucket : String) (es : List ℚ) :
    List (String × List ℚ) :=
  match store with
  | [] => []
  | (k, v) :: rest =>
      if k = bucket then (k, es) :: rest else (k, v) :: evictStore rest bucket es

/-- Smallest score in the sorted set: zrange key 0 0 withscores. -/
def listMin : List ℚ → Option ℚ
  | [] => none
  | x :: xs => some (xs.foldl min x)

/-- _record_request: zadd one member with score now (the random member id is
dropped; zadd of a fresh id always grows the set). -/
def recordRequest (st : LimiterState) (bucket : String) (now : ℚ) : LimiterState :=
  { st with store := setStore st.store bucket (bucketEntries st bucket ++ [now]) }

/-- The entries of a bucket that survive eviction at time now:
zremrangebyscore removes every score at most now - window_seconds. -/
def windowSurvivors (st : LimiterState) (bucket : String) (now : ℚ)
    (cfg : RateLimitConfig) : List ℚ :=
  (bucketEntries st bucket).filter (fun t => now - (cfg.window_seconds : ℚ) < t)

/-- The part of check_limit after the global retry-after gate: resolve the
bucket config (unknown bucket is allowed through), evict entries with score
at most now - window_seconds (zremrangebyscore -inf window_start), count the
survivors, and admit or deny with a wait. Returns the reply together with the
state left in Redis by the eviction. -/
def checkBucketOnly (st : LimiterState) (bucket : String) (now : ℚ) :
    (Bool × ℚ) × LimiterState :=
  match lookupLimit st bucket with
  | none => ((true, 0), st)
  | some limit =>
      let survivors := windowSurvivors st bucket now limit
      let st1 := { st with store := evictStore st.store bucket survivors }
      if (survivors.length : ℤ) ≥ limit.max_requests then
        match listMin survivors with
        | some oldest =>
            ((false, max 0 (oldest + (limit.window_seconds : ℚ) - now)), st1)
        | none =>
            ((false, (limit.window_seconds : ℚ) / (limit.max_requests : ℚ)), st1)
      else ((true, 0), st1)

/-- check_limit: deny while the global 429 cooldown is active, otherwise run
the per-bucket sliding-window check. -/
def checkLimit (st : LimiterState) (bucket : String) (now : ℚ) :
    (Bool × ℚ) × LimiterState :=
  if st.retryAfter > now then ((false, st.retryAfter - now), st)
  else checkBucketOnly st bucket now

/-- set_retry_after(seconds) called at time now. -/
def setRetryAfter (st : LimiterState) (now seconds : ℚ) : LimiterState :=
  { st with retryAfter := now + seconds }

/-- The loop body of _check_all_buckets over the app-level bucket names,
carrying the wait_seconds of the method-bucket check (0 when it was allowed). -/
def checkAppBuckets (bucket : String) (now : ℚ) (waitSeconds : ℚ) :
    List String → LimiterState → (Bool × ℚ) × LimiterState
  | [], st => ((true, 0), st)
  | a :: rest, st =>
      if a = bucket then checkAppBuckets bucket now waitSeconds rest st
      else
        let r := checkLimit st a now
        if r.1.1 then checkAppBuckets bucket now waitSeconds rest r.2
        else ((false, max waitSeconds r.1.2), r.2)

/-- _check_all_buckets: the method bucket and then both app-level buckets.
The clock reads inside one composite check are merged into a single now. -/
def checkAllBuckets (st : LimiterState) (bucket : String) (now : ℚ) :
    (Bool × ℚ) × LimiterState :=
  let r := checkLimit st bucket now
  if r.1.1 then checkAppBuckets bucket now r.1.2 ["app_short", "app_long"] r.2
  else ((false, r.1.2), r.2)

/-- _record_all_buckets: record in the method bucket when it has a config,
then in every DEFAULT_LIMITS bucket not already recorded. -/
def recordAllBuckets (st : LimiterState) (bucket : String) (now : ℚ) : LimiterState :=
  let s :=
    match lookupLimit st bucket with
    | some _ => (recordRequest st bucket now, [bucket])
    | none => (st, ([] : List String))
  s.1.defaultLimits.foldl
    (fun acc p => if s.2.contains p.1 then acc else recordRequest acc p.1 now)
    s.1

/-- Outcome of wait_if_needed: ok is false when the retry ceiling was hit and
RuntimeError was raised; checks counts the _check_all_buckets calls; sleeps
lists the values passed to asyncio.sleep, in order. -/
structure WaitResult where
  ok : Bool
  state : LimiterState
  checks : ℕ
  sleeps : List ℚ
deriving DecidableEq

/-- The wait_if_needed loop. times gives the clock at each iteration and rand
the random.random() draw used for jitter; remaining is MAX_RETRIES - retries,
so the structural recursion mirrors the while guard retries < MAX_RETRIES. -/
def waitIfNeededAux (bucket : String) (times rand : ℕ → ℚ) :
    ℕ → ℕ → LimiterState → WaitResult
  | _, 0, st => ⟨false, st, 0, []⟩
  | retries, remaining + 1, st =>
      let now := times retries
      let c := checkAllBuckets st bucket now
      if c.1.1 then ⟨true, recordAllBuckets c.2 bucket now, 1, []⟩
      else
        let backoff :=
          min (RiotRateLimiter.BASE_BACKOFF_SECONDS * 2 ^ retries)
            RiotRateLimiter.MAX_BACKOFF_SECONDS
        let jitter := backoff * RiotRateLimiter.JITTER_FACTOR * rand retries
        let sleepTime := max c.1.2 (backoff + jitter)
        let r := waitIfNeededAux bucket times rand (retries + 1) remaining c.2
        ⟨r.ok, r.state, r.checks + 1, sleepTime :: r.sleeps⟩

/-- wait_if_needed(bucket), starting from retries = 0. -/
def waitIfNeeded (st : LimiterState) (bucket : String) (times rand : ℕ → ℚ) :
    WaitResult :=
  waitIfNeededAux bucket times rand 0 RiotRateLimiter.MAX_RETRIES st

/-- normalize_match_id (riot_match_id.py): ids that already contain an
underscore pass through; otherwise the upper-cased default platform is
prepended with an underscore. The default platform is passed explicitly
instead of being read from settings. -/
def normalizeMatchId (platform : GameId) (matchId : GameId) : GameId × Bool :=
  if '_' ∈ matchId then (matchId, false)
  else (platform.map Char.toUpper ++ '_' :: matchId, true)

/-- Repeatedly run check_limit on one bucket and, on each admission, record
the admitted request in that bucket, at the given sequence of call times.
Used to state that max_requests calls inside one window all succeed. -/
def admitSeq (st : LimiterState) (bucket : String) : List ℚ → Bool
  | [] => true
  | t :: rest =>
      let c := checkLimit st bucket t
      if c.1.1 then admitSeq (recordRequest c.2 bucket t) bucket rest else false

/-- The limiter state seen by the i-th _check_all_buckets call of the
wait_if_needed loop (state evolves only by the evictions the checks perform). -/
def trajState (st : LimiterState) (bucket : String) (times : ℕ → ℚ) : ℕ → LimiterState
  | 0 => st
  | i + 1 => (checkAllBuckets (trajState st bucket times i) bucket (times i)).2

/-- The reply of the i-th _check_all_buckets call of the wait_if_needed loop. -/
def checkAt (st : LimiterState) (bucket : String) (times : ℕ → ℚ) (i : ℕ) : Bool × ℚ :=
  (checkAllBuckets (trajState st bucket times i) bucket (times i)).1

/-- Backoff before retry i of wait_if_needed: min(BASE * 2^i, MAX). -/
def backoffAt (i : ℕ) : ℚ :=
  min (RiotRateLimiter.BASE_BACKOFF_SECONDS * 2 ^ i) RiotRateLimiter.MAX_BACKOFF_SECONDS

/-!  Header parsing and dynamic reconfiguration (update_from_headers). -/

/-- The four response headers update_from_headers consumes, after key
normalization to lower case; the -count headers are only logged and are not
modelled. A field holds the raw header value when the header is present. -/
structure Headers where
  appRateLimit : Option (List Char)
  methodRateLimit : Option (List Char)
  rateLimit : Option (List Char)
  rateLimitType : Option (List Char)
deriving DecidableEq

/-- Python truthiness of an optional header value: absent and empty are falsy. -/
def hdrPresent : Option (List Char) → Bool
  | some s => !s.isEmpty
  | none => false

/-- str.split on a single separator character. -/
def splitOnChar (c : Char) : List Char → List (List Char)
  | [] => [[]]
  | x :: xs =>
      if x = c then [] :: splitOnChar c xs
      else
        match splitOnChar c xs with
        | [] => [[x]]
        | r :: rs => (x :: r) :: rs

/-- str.strip(): drop whitespace from both ends. -/
def stripChars (s : List Char) : List Char :=
  ((s.dropWhile Char.isWhitespace).reverse.dropWhile Char.isWhitespace).reverse

/-- The value of a nonempty all-digit string. -/
def digitsVal (s : List Char) : Option ℕ :=
  if !s.isEmpty && s.all Char.isDigit then
    some (s.foldl (fun acc c => acc * 10 + (c.toNat - 48)) 0)
  else none

/-- Python int() on a string: strip whitespace, optional sign, digits; None
models the ValueError. (Underscore digit separators are not modelled.) -/
def pyInt (s : List Char) : Option ℤ :=
  match stripChars s with
  | '-' :: rest => (digitsVal rest).map (fun n => -(n : ℤ))
  | '+' :: rest => (digitsVal rest).map (fun n => (n : ℤ))
  | t => (digitsVal t).map (fun n => (n : ℤ))

/-- The loop of _parse_rate_limit_header over the comma-separated parts:
strip, skip chunks without a colon, split at the first colon, keep the pair
when both sides parse as ints. -/
def parsePairs : List (List Char) → List (ℤ × ℤ)
  | [] => []
  | part :: rest =>
      let chunk := stripChars part
      if chunk.isEmpty || !(chunk.contains ':') then parsePairs rest
      else
        let maxStr := chunk.takeWhile (fun c => c ≠ ':')
        let windowStr := (chunk.dropWhile (fun c => c ≠ ':')).tail
        match pyInt maxStr, pyInt windowStr with
        | some m, some w => (m, w) :: parsePairs rest
        | _, _ => parsePairs rest

/-- _parse_rate_limit_header: split on commas and parse each (max, window). -/
def parseRateLimitHeader (value : List Char) : List (ℤ × ℤ) :=
  parsePairs (splitOnChar ',' value)

/-- parsed.sort(key=lambda item: item[1]): a stable ascending sort by window.
Insertion sort with a strict comparator on the key is exactly that stable
sort, so it agrees with the list.sort of the source. -/
def sortByWindow (pairs : List (ℤ × ℤ)) : List (ℤ × ℤ) :=
  List.insertionSort (fun a b => a.2 < b.2) pairs

/-- Python dict assignment d[k] = v on an insertion-ordered dict: replace in
place when the key exists, append otherwise. -/
def dinsert {α β : Type} [DecidableEq α] (d : List (α × β)) (k : α) (v : β) :
    List (α × β) :=
  match d with
  | [] => [(k, v)]
  | (k0, v0) :: rest =>
      if k0 = k then (k0, v) :: rest else (k0, v0) :: dinsert rest k v

/-- Assign the smallest-window pair to app_short and the largest-window pair
to app_long (the shared body of the Riot and legacy application branches). -/
def applyAppPairs (st : LimiterState) (pairs : List (ℤ × ℤ)) : LimiterState :=
  let sorted := sortByWindow pairs
  let smallest := sorted.headI
  let largest := sorted.getLastI
  let d1 := dinsert st.defaultLimits "app_short"
    (RateLimitConfig.mk smallest.1 smallest.2)
  let d2 := dinsert d1 "app_long" (RateLimitConfig.mk largest.1 largest.2)
  { st with defaultLimits := d2 }

/-- update_from_headers: apply the application header pairs to the two global
buckets, the most restrictive method pair to this endpoint's bucket, and fall
back to the legacy single-family header only when both Riot families are
absent. -/
def updateFromHeaders (st : LimiterState) (bucket : String) (h : Headers) :
    LimiterState :=
  let st1 :=
    if hdrPresent h.appRateLimit then
      let parsedApp := parseRateLimitHeader (h.appRateLimit.getD [])
      if parsedApp.isEmpty then st else applyAppPairs st parsedApp
    else st
  let st2 :=
    if hdrPresent h.methodRateLimit then
      let parsedMethod := parseRateLimitHeader (h.methodRateLimit.getD [])
      if parsedMethod.isEmpty then st1
      else
        let p := (sortByWindow parsedMethod).headI
        { st1 with methodLimits := dinsert st1.methodLimits bucket ⟨p.1, p.2⟩ }
    else st1
  if hdrPresent h.appRateLimit || hdrPresent h.methodRateLimit ||
      !hdrPresent h.rateLimit then st2
  else
    let parsedLegacy := parseRateLimitHeader (h.rateLimit.getD [])
    if parsedLegacy.isEmpty then st2
    else if h.rateLimitType = some ("application".toList) then
      applyAppPairs st2 parsedLegacy
    else
      let p := (sortByWindow parsedLegacy).headI
      { st2 with methodLimits := dinsert st2.methodLimits bucket ⟨p.1, p.2⟩ }

/-!  Relational model: Match rows, riot_account_match links. -/

/-- An opaque JSONB detail payload. pid is the identity of the blob; truthy
is the Python truthiness of the decoded value; isNull marks a stored JSON
null (the sentinel the enqueue query treats as missing); infoGameStart is
payload.info.gameStartTimestamp when both keys are present. -/
structure Payload where
  pid : ℕ
  truthy : Bool
  isNull : Bool
  infoGameStart : Option ℤ
deriving DecidableEq, Repr

/-- A row of the match table (models/match.py). The UUID primary key is
modelled as a number drawn fresh from DB.nextId (uuid4 never collides). -/
structure MatchRow where
  id : ℕ
  game_id : GameId
  game_info : Option Payload
  game_start_timestamp : Option ℤ
deriving DecidableEq, Repr

/-- The relational store: match rows, riot_account_match links as
(riot_account_id, match_id) pairs, and the fresh-id source. -/
structure DB where
  rows : List MatchRow
  links : List (ℕ × ℕ)
  nextId : ℕ
deriving DecidableEq, Repr

/-- The dict comprehension building game_id -> row from a query result. -/
def dictOf (ms : List MatchRow) : List (GameId × MatchRow) :=
  ms.foldl (fun d m => dinsert d m.game_id m) []

/-- The first loop of upsert_matches_for_riot_account: create a shell row
(fresh id, no payload) for every id not in the dict, adding it to the dict
and to the session's pending inserts. -/
def buildMatches (dict : List (GameId × MatchRow)) (acc : List MatchRow) (nid : ℕ) :
    List GameId → List (GameId × MatchRow) × List MatchRow × ℕ
  | [] => (dict, acc, nid)
  | g :: gs =>
      match dict.lookup g with
      | some _ => buildMatches dict acc nid gs
      | none =>
          let m : MatchRow := ⟨nid, g, none, none⟩
          buildMatches (dinsert dict g m) (acc ++ [m]) (nid + 1) gs

/-- The second loop of upsert_matches_for_riot_account: link every dict row
whose id is not already linked to the account, counting the links created. -/
def buildLinks (account : ℕ) (already : List ℕ) :
    List (GameId × MatchRow) → List (ℕ × ℕ) × ℕ
  | [] => ([], 0)
  | (_, m) :: rest =>
      if already.contains m.id then buildLinks account already rest
      else
        let r := buildLinks account already rest
        ((account, m.id) :: r.1, r.2 + 1)

/-- upsert_matches_for_riot_account (match_sync.py): batch read the existing
rows for the given ids, create shells for the missing ones, batch read the
existing links for the account, create the missing links, commit, and return
the number of links created. -/
def upsertMatchesForRiotAccount (db : DB) (account : ℕ) (matchIds : List GameId) :
    DB × ℕ :=
  if matchIds.isEmpty then (db, 0)
  else
    let existing0 := dictOf (db.rows.filter (fun m => matchIds.contains m.game_id))
    let b := buildMatches existing0 [] db.nextId matchIds
    let dict := b.1
    let newMs := b.2.1
    let nid := b.2.2
    let allIds := dict.map (fun p => p.2.id)
    let already :=
      (db.links.filter (fun l => l.1 == account && allIds.contains l.2)).map
        (fun l => l.2)
    let lk := buildLinks account already dict
    (⟨db.rows ++ newMs, db.links ++ lk.1, nid⟩, lk.2)

/-- Does any game_id occur twice (the unique constraint on match.game_id)? -/
def dupGameIds : List MatchRow → Bool
  | [] => false
  | m :: rest => rest.any (fun x => x.game_id == m.game_id) || dupGameIds rest

/-- upsert_matches_for_riot_account under an insert race: a concurrent writer
commits the row `concurrent` after this transaction's batch select and before
its flush. The flush then enforces the unique constraint on game_id over the
committed rows plus the pending inserts and raises IntegrityError on a
duplicate; the source wraps no part of the add/flush/commit in a handler, so
the violation propagates to the caller (the error branch). -/
def upsertMatchesRace (db : DB) (concurrent : MatchRow) (account : ℕ)
    (matchIds : List GameId) : Except Unit (DB × ℕ) :=
  if matchIds.isEmpty then .ok (db, 0)
  else
    let existing0 := dictOf (db.rows.filter (fun m => matchIds.contains m.game_id))
    let b := buildMatches existing0 [] db.nextId matchIds
    let dict := b.1
    let newMs := b.2.1
    let nid := b.2.2
    let matchesAfterRace := db.rows ++ [concurrent]
    if dupGameIds (matchesAfterRace ++ newMs) then .error ()
    else
      let allIds := dict.map (fun p => p.2.id)
      let already :=
        (db.links.filter (fun l => l.1 == account && allIds.contains l.2)).map
          (fun l => l.2)
      let lk := buildLinks account already dict
      .ok (⟨matchesAfterRace ++ newMs, db.links ++ lk.1, nid⟩, lk.2)

/-- The relational invariants the schema enforces: unique game_id, unique
primary keys, unique link pairs, primary keys below the fresh-id source, and
links referencing existing match rows. -/
abbrev DBinv (db : DB) : Prop :=
  (db.rows.map (fun m => m.game_id)).Nodup ∧
  (db.rows.map (fun m => m.id)).Nodup ∧
  db.links.Nodup ∧
  (∀ m ∈ db.rows, m.id < db.nextId) ∧
  (∀ l ∈ db.links, ∃ m ∈ db.rows, m.id = l.2)

/-!  Deduplicated enqueue of detail-fetch jobs. -/

/-- The WHERE clause of the enqueue query: game_info IS NULL, or the stored
JSON value is null. -/
def gameInfoMissing (m : MatchRow) : Bool :=
  match m.game_info with
  | none => true
  | some p => p.isNull

/-- The enqueue query: game_ids among the given ids whose row lacks a detail
payload, in table order. -/
def missingDetailIds (db : DB) (matchIds : List GameId) : List GameId :=
  (db.rows.filter (fun m => matchIds.contains m.game_id && gameInfoMissing m)).map
    (fun m => m.game_id)

/-- The stride-BATCH_SIZE slicing loop (range(0, len, 5); batch = xs[i:i+5]),
written with a fuel argument that starts at the list length. -/
def chunkAux {α : Type} : ℕ → List α → List (List α)
  | 0, _ => []
  | _, [] => []
  | fuel + 1, x :: xs => (x :: xs.take 4) :: chunkAux fuel (xs.drop 4)

/-- Partition into consecutive batches of at most BATCH_SIZE = 5. -/
def chunkBatches {α : Type} (l : List α) : List (List α) :=
  chunkAux l.length l

/-- The deterministic ARQ job id of one batch, derived from its first id,
last id and size: match-details:first..last:size. -/
def jobKeyOf (first last : GameId) (size : ℕ) : List Char :=
  "match-details:".toList ++ first ++ ('.' :: '.' :: last) ++
    (':' :: Nat.toDigits 10 size)

/-- enqueue_missing_detail_jobs: query the ids lacking a payload, return 0
without touching the pool when nothing is missing, otherwise enqueue one
fetch_match_details_job per batch of 5 under its deterministic job id and
count the ids enqueued. Returns (enqueued, submitted jobs in order). -/
def enqueueMissingDetailJobs (db : DB) (matchIds : List GameId) :
    ℕ × List (List Char × List GameId) :=
  if matchIds.isEmpty then (0, [])
  else
    let missingDetails := missingDetailIds db matchIds
    if missingDetails.isEmpty then (0, [])
    else
      (chunkBatches missingDetails).foldl
        (fun acc batch =>
          (acc.1 + batch.length,
           acc.2 ++ [(jobKeyOf batch.headI batch.getLastI batch.length, batch)]))
        (0, [])

/-!  The detail-fetch job (fetch_match_details_job) and the API client. -/

/-- The structured error of riot_api_client.py (class RiotRequestError). -/
structure RiotRequestError where
  message : List Char
  status : Option ℤ
  body : Option (List Char)
deriving DecidableEq, Repr

/-- The loop state of fetch_match_details_job: the session's view of the
match rows, the fetched counter, the collected per-item errors, and the
pending_commit flag. -/
structure DetailJobState where
  rows : List MatchRow
  fetched : ℕ
  errors : List (GameId × List Char)
  pendingCommit : Bool
deriving DecidableEq

/-- Apply one fetched payload to a match row: always store game_info; copy
info.gameStartTimestamp when the payload is truthy and carries it. -/
def applyDetail (m : MatchRow) (payload : Payload) : MatchRow :=
  let m1 := { m with game_info := some payload }
  if payload.truthy then
    match payload.infoGameStart with
    | some ts => { m1 with game_start_timestamp := some ts }
    | none => m1
  else m1

/-- The per-id loop of fetch_match_details_job: normalize the id, fetch the
detail (the fetch oracle models the upstream, RiotRequestError included),
look the row up by the original id, update it when found, and collect a
RiotRequestError as one errors entry instead of aborting the loop.
scalar_one_or_none is modelled by find? (the unique constraint on game_id
rules out multiple rows). -/
def fetchJobAux (fetch : GameId → Except RiotRequestError Payload)
    (platform : GameId) : List GameId → DetailJobState → DetailJobState
  | [], s => s
  | mid :: rest, s =>
      let rmid := (normalizeMatchId platform mid).1
      match fetch rmid with
      | .error e =>
          fetchJobAux fetch platform rest
            { s with errors := s.errors ++ [(mid, e.message)] }
      | .ok payload =>
          match s.rows.find? (fun m => m.game_id == mid) with
          | none => fetchJobAux fetch platform rest s
          | some _ =>
              fetchJobAux fetch platform rest
                { rows := s.rows.map
                    (fun m => if m.game_id == mid then applyDetail m payload else m),
                  fetched := s.fetched + 1,
                  errors := s.errors,
                  pendingCommit := true }

/-- The return payload of fetch_match_details_job. -/
structure DetailJobResult where
  status : String
  fetched : ℕ
  errors : List (GameId × List Char)
deriving DecidableEq

/-- fetch_match_details_job: run the per-id loop over the session, commit
once at the end when anything was updated, and report ok or partial. The
third component counts the session.commit() calls. -/
def fetchMatchDetailsJob (db : DB) (fetch : GameId → Except RiotRequestError Payload)
    (platform : GameId) (matchIds : List GameId) : DetailJobResult × DB × ℕ :=
  let s := fetchJobAux fetch platform matchIds ⟨db.rows, 0, [], false⟩
  let committed := if s.pendingCommit then ({ db with rows := s.rows }, 1) else (db, 0)
  (⟨if s.errors.isEmpty then "ok" else "partial", s.fetched, s.errors⟩,
   committed.1, committed.2)

/-- Does the fetch oracle fail for this id (after normalization)? -/
def fetchFails (fetch : GameId → Except RiotRequestError Payload)
    (platform : GameId) (g : GameId) : Bool :=
  match fetch (normalizeMatchId platform g).1 with
  | .error _ => true
  | .ok _ => false

/-!  RiotApiClient._get_json. -/

namespace RiotApiClient

def MAX_RETRIES : ℕ := 3

def BASE_BACKOFF_SECONDS : ℚ := 1

end RiotApiClient

/-- What the transport returns for one HTTP GET: a response with its status,
body and (for 429s) the already-parsed Retry-After wait (default 1 when the
header is absent or unparseable), or a network-level failure. -/
inductive HttpAttempt where
  | response (status : ℕ) (body : List Char) (retryAfterSecs : ℚ)
  | netError (message : List Char)
deriving DecidableEq

deriving instance DecidableEq for Except

/-- The observable outcome of one _get_json call: the returned body or the
raised RiotRequestError, the number of HTTP attempts issued, and the values
passed to asyncio.sleep, in order. -/
structure GetJsonResult where
  result : Except RiotRequestError (List Char)
  attempts : ℕ
  sleeps : List ℚ
deriving DecidableEq

/-- The error raised when the retry budget is exhausted. -/
def maxRetriesError : RiotRequestError :=
  ⟨"riot_api_max_retries_exceeded".toList, some 429,
   some "Max retries (3) exceeded".toList⟩

/-- The while loop of _get_json. script gives the transport outcome of each
attempt and rand the random.random() jitter draws; fuel is
MAX_RETRIES + 1 - retries, mirroring the guard retries <= MAX_RETRIES.
A 429 sets the limiter cooldown and sleeps Retry-After, then retries; a 5xx
sleeps backoff plus jitter and retries while budget remains, else raises; any
other 4xx raises immediately; a network error sleeps plain backoff and
retries while budget remains, else raises with status 502; a non-error
status returns the body. Limiter bookkeeping (wait_if_needed,
update_from_headers, set_retry_after) does not alter this control flow and
is not replayed here. -/
def getJsonAux (script : ℕ → HttpAttempt) (rand : ℕ → ℚ) :
    ℕ → ℕ → ℕ → GetJsonResult
  | _, _, 0 => ⟨.error maxRetriesError, 0, []⟩
  | retries, attempt, fuel + 1 =>
      match script attempt with
      | .netError msg =>
          if retries < RiotApiClient.MAX_RETRIES then
            let backoff := RiotApiClient.BASE_BACKOFF_SECONDS * 2 ^ retries
            let r := getJsonAux script rand (retries + 1) (attempt + 1) fuel
            ⟨r.result, r.attempts + 1, backoff :: r.sleeps⟩
          else ⟨.error ⟨"riot_api_failed".toList, some 502, some msg⟩, 1, []⟩
      | .response status body retryAfter =>
          if status = 429 then
            if RiotApiClient.MAX_RETRIES < retries + 1 then
              ⟨.error maxRetriesError, 1, []⟩
            else
              let r := getJsonAux script rand (retries + 1) (attempt + 1) fuel
              ⟨r.result, r.attempts + 1, retryAfter :: r.sleeps⟩
          else if 500 ≤ status then
            if retries < RiotApiClient.MAX_RETRIES then
              let backoff := RiotApiClient.BASE_BACKOFF_SECONDS * 2 ^ retries
              let jitter := backoff * (1 / 2) * rand attempt
              let r := getJsonAux script rand (retries + 1) (attempt + 1) fuel
              ⟨r.result, r.attempts + 1, (backoff + jitter) :: r.sleeps⟩
            else ⟨.error ⟨"riot_api_failed".toList, some (status : ℤ), some body⟩, 1, []⟩
          else if 400 ≤ status then
            ⟨.error ⟨"riot_api_failed".toList, some (status : ℤ), some body⟩, 1, []⟩
          else ⟨.ok body, 1, []⟩

/-- One _get_json call with a valid credential, from a fresh retry counter. -/
def getJson (script : ℕ → HttpAttempt) (rand : ℕ → ℚ) : GetJsonResult :=
  getJsonAux script rand 0 0 (RiotApiClient.MAX_RETRIES + 1)

/-- A 12-row table whose rows all lack a detail payload, used to instantiate
the enqueue claim. -/
def dbC4 : DB :=
  ⟨[⟨0, ['a'], none, none⟩, ⟨1, ['b'], none, none⟩, ⟨2, ['c'], none, none⟩,
    ⟨3, ['d'], none, none⟩, ⟨4, ['e'], none, none⟩, ⟨5, ['f'], none, none⟩,
    ⟨6, ['g'], none, none⟩, ⟨7, ['h'], none, none⟩, ⟨8, ['i'], none, none⟩,
    ⟨9, ['j'], none, none⟩, ⟨10, ['k'], none, none⟩, ⟨11, ['l'], none, none⟩],
   [], 12⟩

/-- The 12 match ids of dbC4. -/
def idsC4 : List GameId :=
  [['a'], ['b'], ['c'], ['d'], ['e'], ['f'], ['g'], ['h'], ['i'], ['j'], ['k'],
   ['l']]

/-- A limiter state with one configured bucket of max 1 per 2 seconds and one
recorded request at time 1, used to instantiate the admission claim. -/
def limW : LimiterState :=
  ⟨[("app_short", ⟨1, 2⟩)], [], [("app_short", [1])], 0⟩

/-- A 5-row table for the detail-job claim, one row per id a..e. -/
def dbC6 : DB :=
  ⟨[⟨0, ['a'], none, none⟩, ⟨1, ['b'], none, none⟩, ⟨2, ['c'], none, none⟩,
    ⟨3, ['d'], none, none⟩, ⟨4, ['e'], none, none⟩], [], 5⟩

/-- The ids of dbC6. -/
def idsC6 : List GameId := [['a'], ['b'], ['c'], ['d'], ['e']]

/-- A fetch oracle that fails (upstream 500 after retries exhausted) exactly
for the normalized id NA1_c and returns one fixed payload otherwise. -/
def fetchC6 : GameId → Except RiotRequestError Payload :=
  fun g =>
    if g = ['N', 'A', '1', '_', 'c'] then
      .error ⟨"riot_api_failed".toList, some 500, none⟩
    else .ok ⟨1, true, false, none⟩

/-!  Theorems. -/

/-- Claim C10: normalize_match_id leaves ids containing an underscore
unchanged (was_normalized false), prefixes the upper-cased default platform
and an underscore otherwise (was_normalized true), and is idempotent: run on
the first component of its own output it returns that value unchanged. -/
theorem normalize_match_id_idempotent (platform matchId : GameId) :
    ('_' ∈ matchId → normalizeMatchId platform matchId = (matchId, false)) ∧
    ('_' ∉ matchId →
      normalizeMatchId platform matchId =
        (platform.map Char.toUpper ++ '_' :: matchId, true)) ∧
    normalizeMatchId platform (normalizeMatchId platform matchId).1 =
      ((normalizeMatchId platform matchId).1, false) := by
  refine ⟨fun h => by simp [normalizeMatchId, h], fun h => by simp [normalizeMatchId, h], ?_⟩
  by_cases h : '_' ∈ matchId
  · simp [normalizeMatchId, h]
  · simp [normalizeMatchId, h]

/-- Witness for C10 at a concrete platform and id without an underscore. -/
theorem normalize_match_id_idempotent_witness :
    ('_' ∉ (['1', '2', '3'] : GameId)) ∧
      normalizeMatchId ['n', 'a', '1'] ['1', '2', '3'] =
        ((['n', 'a', '1'] : GameId).map Char.toUpper ++ '_' :: ['1', '2', '3'], true) :=
  ⟨by decide,
   (normalize_match_id_idempotent ['n', 'a', '1'] ['1', '2', '3']).2.1 (by decide)⟩

/-- Claim C2: after set_retry_after(s) at time t0, every bucket check at a
time t before t0 + s is denied with wait exactly (t0 + s) - t, the reported
wait strictly decreases as the check time advances, and from t0 + s on the
cooldown gate no longer fires: check_limit is exactly the bucket-level
admission logic again. -/
theorem retry_after_cooldown (st : LimiterState) (bucket : String) (t0 s : ℚ) :
    (∀ t : ℚ, t < t0 + s →
      checkLimit (setRetryAfter st t0 s) bucket t =
        ((false, (t0 + s) - t), setRetryAfter st t0 s)) ∧
    (∀ t1 t2 : ℚ, t1 < t2 → t2 < t0 + s →
      (checkLimit (setRetryAfter st t0 s) bucket t2).1.2 <
        (checkLimit (setRetryAfter st t0 s) bucket t1).1.2) ∧
    (∀ t : ℚ, t0 + s ≤ t →
      checkLimit (setRetryAfter st t0 s) bucket t =
        checkBucketOnly (setRetryAfter st t0 s) bucket t) := by
  have hra : (setRetryAfter st t0 s).retryAfter = t0 + s := rfl
  refine ⟨?_, ?_, ?_⟩
  · intro t ht
    unfold checkLimit
    rw [hra, if_pos ht]
  · intro t1 t2 h12 h2
    have h1 : t1 < t0 + s := lt_trans h12 h2
    unfold checkLimit
    rw [hra, if_pos h2, if_pos h1]
    simp only
    linarith
  · intro t ht
    unfold checkLimit
    rw [hra, if_neg (not_lt.mpr ht)]

/-- Witness for C2: a 5 second cooldown set at time 0, checked at time 3. -/
theorem retry_after_cooldown_witness :
    ((3 : ℚ) < 0 + 5) ∧
      checkLimit (setRetryAfter initialLimiter 0 5) "app_short" 3 =
        ((false, (0 + 5) - 3), setRetryAfter initialLimiter 0 5) :=
  ⟨by norm_num, (retry_after_cooldown initialLimiter "app_short" 0 5).1 3 (by norm_num)⟩

/-- Claim C7: a response whose status is a client error, that is at least
400 but below 500 and not 429, makes _get_json raise the structured error
carrying that status and body at once: one HTTP attempt, no sleep, no retry. -/
theorem client_error_no_retry (script : ℕ → HttpAttempt) (rand : ℕ → ℚ)
    (status : ℕ) (body : List Char) (ra : ℚ)
    (hs : script 0 = .response status body ra)
    (h400 : 400 ≤ status) (h500 : status < 500) (h429 : status ≠ 429) :
    getJson script rand =
      ⟨.error ⟨"riot_api_failed".toList, some (status : ℤ), some body⟩, 1, []⟩ := by
  show getJsonAux script rand 0 0 (RiotApiClient.MAX_RETRIES + 1) = _
  rw [show RiotApiClient.MAX_RETRIES + 1 = 3 + 1 from rfl]
  unfold getJsonAux
  rw [hs]
  dsimp only
  rw [if_neg h429, if_neg (by omega : ¬ 500 ≤ status), if_pos h400]

/-- Witness for C7: a 404 with body x on the first attempt. -/
theorem client_error_no_retry_witness :
    (fun _ : ℕ => HttpAttempt.response 404 ['x'] 1) 0 =
        HttpAttempt.response 404 ['x'] 1 ∧
      getJson (fun _ => HttpAttempt.response 404 ['x'] 1) (fun _ => 0) =
        ⟨.error ⟨"riot_api_failed".toList, some ((404 : ℕ) : ℤ), some ['x']⟩, 1, []⟩ :=
  ⟨rfl, client_error_no_retry _ _ 404 ['x'] 1 rfl (by decide) (by decide) (by decide)⟩

/-- Looking up the assigned key after a dict assignment yields the value. -/
theorem lookup_dinsert {α β : Type} [DecidableEq α] (d : List (α × β)) (k : α) (v : β) :
    (dinsert d k v).lookup k = some v := by
  induction d with
  | nil => simp [dinsert, List.lookup]
  | cons p rest ih =>
      obtain ⟨k0, v0⟩ := p
      by_cases h : k0 = k
      · subst h
        simp [dinsert, List.lookup]
      · have hbeq : (k == k0) = false := beq_false_of_ne (Ne.symm h)
        simp [dinsert, h, List.lookup, hbeq, ih]

/-- A dict assignment leaves other keys unchanged. -/
theorem lookup_dinsert_ne {α β : Type} [DecidableEq α] (d : List (α × β))
    (k k0 : α) (v : β) (h : k0 ≠ k) :
    (dinsert d k v).lookup k0 = d.lookup k0 := by
  have hbeq : (k0 == k) = false := beq_false_of_ne h
  induction d with
  | nil => simp [dinsert, List.lookup, hbeq]
  | cons p rest ih =>
      obtain ⟨k1, v1⟩ := p
      by_cases h1 : k1 = k
      · subst h1
        simp [dinsert, List.lookup, hbeq]
      · simp [dinsert, h1, List.lookup, ih]

/-- Inserting into a list sorted by window keeps it sorted by window. -/
theorem sorted_le_orderedInsert (a : ℤ × ℤ) (l : List (ℤ × ℤ))
    (h : l.Sorted (fun p q => p.2 ≤ q.2)) :
    (List.orderedInsert (fun p q => p.2 < q.2) a l).Sorted
      (fun p q => p.2 ≤ q.2) := by
  induction l with
  | nil => simp [List.orderedInsert]
  | cons b t ih =>
      rw [List.orderedInsert]
      by_cases hab : a.2 < b.2
      · rw [if_pos hab]
        rw [List.sorted_cons]
        refine ⟨?_, h⟩
        intro x hx
        rcases List.mem_cons.mp hx with rfl | hx
        · exact le_of_lt hab
        · exact le_trans (le_of_lt hab) ((List.sorted_cons.mp h).1 x hx)
      · rw [if_neg hab]
        rw [List.sorted_cons]
        refine ⟨?_, ih (List.sorted_cons.mp h).2⟩
        intro x hx
        rcases (List.mem_orderedInsert _).mp hx with rfl | hx
        · exact le_of_not_lt hab
        · exact (List.sorted_cons.mp h).1 x hx

/-- The stable sort by window is sorted by window. -/
theorem sorted_le_sortByWindow (l : List (ℤ × ℤ)) :
    (sortByWindow l).Sorted (fun p q => p.2 ≤ q.2) := by
  induction l with
  | nil => simp [sortByWindow, List.insertionSort]
  | cons a t ih =>
      rw [sortByWindow, List.insertionSort]
      exact sorted_le_orderedInsert a _ ih

/-- The stable sort by window is a permutation of its input. -/
theorem perm_sortByWindow (l : List (ℤ × ℤ)) : (sortByWindow l).Perm l :=
  List.perm_insertionSort _ l

/-- Sorting a nonempty list yields a nonempty list. -/
theorem sortByWindow_ne_nil {l : List (ℤ × ℤ)} (h : l ≠ []) : sortByWindow l ≠ [] := by
  intro hc
  apply h
  have hp := perm_sortByWindow l
  rw [hc] at hp
  exact hp.symm.eq_nil

/-- The head of a list sorted by window is a member of least window. -/
theorem headI_min {l : List (ℤ × ℤ)} (hs : l.Sorted (fun p q => p.2 ≤ q.2))
    (hne : l ≠ []) : l.headI ∈ l ∧ ∀ q ∈ l, l.headI.2 ≤ q.2 := by
  cases l with
  | nil => exact absurd rfl hne
  | cons a t =>
      refine ⟨List.mem_cons_self a t, ?_⟩
      intro q hq
      rcases List.mem_cons.mp hq with rfl | hq
      · exact le_refl _
      · exact (List.sorted_cons.mp hs).1 q hq

/-- The last element of a list sorted by window is a member of greatest
window. -/
theorem getLastI_max {l : List (ℤ × ℤ)} (hs : l.Sorted (fun p q => p.2 ≤ q.2))
    (hne : l ≠ []) : l.getLastI ∈ l ∧ ∀ q ∈ l, q.2 ≤ l.getLastI.2 := by
  induction l with
  | nil => exact absurd rfl hne
  | cons a t ih =>
      cases t with
      | nil =>
          refine ⟨?_, ?_⟩
          · simp [List.getLastI]
          · intro q hq
            rcases List.mem_cons.mp hq with rfl | hq
            · simp [List.getLastI]
            · cases hq
      | cons b t' =>
          have hlast : (a :: b :: t').getLastI = (b :: t').getLastI := by
            simp [List.getLastI_eq_getLast?, List.getLast?_cons_cons]
          have hrec := ih (List.sorted_cons.mp hs).2 (by simp)
          refine ⟨?_, ?_⟩
          · rw [hlast]
            exact List.mem_cons_of_mem a hrec.1
          · intro q hq
            rw [hlast]
            rcases List.mem_cons.mp hq with rfl | hq
            · exact (List.sorted_cons.mp hs).1 _ hrec.1
            · exact hrec.2 q hq

/-- In a list with pairwise distinct windows, two members with equal windows
are the same pair. -/
theorem eq_of_mem_pairwise_ne {l : List (ℤ × ℤ)}
    (hp : l.Pairwise (fun a b => a.2 ≠ b.2)) {p q : ℤ × ℤ}
    (hpmem : p ∈ l) (hqmem : q ∈ l) (hkey : p.2 = q.2) : p = q := by
  induction l with
  | nil => cases hpmem
  | cons a t ih =>
      rcases List.mem_cons.mp hpmem with rfl | hp'
      · rcases List.mem_cons.mp hqmem with rfl | hq'
        · rfl
        · exact absurd hkey ((List.pairwise_cons.mp hp).1 q hq')
      · rcases List.mem_cons.mp hqmem with rfl | hq'
        · exact absurd hkey.symm ((List.pairwise_cons.mp hp).1 p hp')
        · exact ih (List.pairwise_cons.mp hp).2 hp' hq'

/-- Parsing the empty header value yields no pairs. -/
theorem parseRateLimitHeader_nil : parseRateLimitHeader [] = [] := rfl

/-- With only the application family present and parsing to at least one
pair, update_from_headers is exactly the application-pair assignment. -/
theorem updateFromHeaders_app_only (st : LimiterState) (bucket : String)
    (v : List Char) (hne : parseRateLimitHeader v ≠ []) :
    updateFromHeaders st bucket ⟨some v, none, none, none⟩ =
      applyAppPairs st (parseRateLimitHeader v) := by
  have hv : v ≠ [] := by
    intro h
    rw [h] at hne
    exact hne parseRateLimitHeader_nil
  have hpres : hdrPresent (some v) = true := by
    cases v with
    | nil => exact absurd rfl hv
    | cons c cs => rfl
  have hempty : (parseRateLimitHeader v).isEmpty = false := by
    cases hh : parseRateLimitHeader v with
    | nil => exact absurd hh hne
    | cons x xs => rfl
  have hnone : hdrPresent none = false := rfl
  unfold updateFromHeaders
  simp [hpres, hempty, hnone]

/-- With only the application family present, the two global buckets receive
the head and the last element of the window-sorted parsed pairs. -/
theorem updateFromHeaders_app_lookups (st : LimiterState) (bucket : String)
    (v : List Char) (hne : parseRateLimitHeader v ≠ []) :
    ((updateFromHeaders st bucket ⟨some v, none, none, none⟩).defaultLimits.lookup
        "app_short" =
      some (RateLimitConfig.mk (sortByWindow (parseRateLimitHeader v)).headI.1
        (sortByWindow (parseRateLimitHeader v)).headI.2)) ∧
    ((updateFromHeaders st bucket ⟨some v, none, none, none⟩).defaultLimits.lookup
        "app_long" =
      some (RateLimitConfig.mk (sortByWindow (parseRateLimitHeader v)).getLastI.1
        (sortByWindow (parseRateLimitHeader v)).getLastI.2)) := by
  rw [updateFromHeaders_app_only st bucket v hne]
  simp only [applyAppPairs]
  constructor
  · rw [lookup_dinsert_ne _ _ _ _ (by decide : "app_short" ≠ "app_long")]
    exact lookup_dinsert _ _ _
  · exact lookup_dinsert _ _ _

/-- Claim C5: when the application rate-limit header parses to at least one
(max, window) pair, update_from_headers assigns a pair of least window to
app_short and a pair of greatest window to app_long; and for two header
values whose parsed pair lists are permutations of each other with pairwise
distinct windows, both yield the same app_short and app_long configs. -/
theorem update_from_headers_app_pairs (st : LimiterState) (bucket : String) :
    (∀ v : List Char, parseRateLimitHeader v ≠ [] →
      ∃ p q : ℤ × ℤ, p ∈ parseRateLimitHeader v ∧ q ∈ parseRateLimitHeader v ∧
        (∀ x ∈ parseRateLimitHeader v, p.2 ≤ x.2 ∧ x.2 ≤ q.2) ∧
        (updateFromHeaders st bucket ⟨some v, none, none, none⟩).defaultLimits.lookup
            "app_short" = some (RateLimitConfig.mk p.1 p.2) ∧
        (updateFromHeaders st bucket ⟨some v, none, none, none⟩).defaultLimits.lookup
            "app_long" = some (RateLimitConfig.mk q.1 q.2)) ∧
    (∀ v1 v2 : List Char, parseRateLimitHeader v1 ≠ [] →
      (parseRateLimitHeader v1).Perm (parseRateLimitHeader v2) →
      (parseRateLimitHeader v1).Pairwise (fun a b => a.2 ≠ b.2) →
      ((updateFromHeaders st bucket ⟨some v1, none, none, none⟩).defaultLimits.lookup
          "app_short" =
        (updateFromHeaders st bucket ⟨some v2, none, none, none⟩).defaultLimits.lookup
          "app_short") ∧
      ((updateFromHeaders st bucket ⟨some v1, none, none, none⟩).defaultLimits.lookup
          "app_long" =
        (updateFromHeaders st bucket ⟨some v2, none, none, none⟩).defaultLimits.lookup
          "app_long")) := by
  constructor
  · intro v hne
    have hsne := sortByWindow_ne_nil hne
    have hsorted := sorted_le_sortByWindow (parseRateLimitHeader v)
    have hmin := headI_min hsorted hsne
    have hmax := getLastI_max hsorted hsne
    have hperm := perm_sortByWindow (parseRateLimitHeader v)
    have hlk := updateFromHeaders_app_lookups st bucket v hne
    refine ⟨(sortByWindow (parseRateLimitHeader v)).headI,
      (sortByWindow (parseRateLimitHeader v)).getLastI,
      hperm.subset hmin.1, hperm.subset hmax.1, ?_, hlk.1, hlk.2⟩
    intro x hx
    have hx' := hperm.mem_iff.mpr hx
    exact ⟨hmin.2 x hx', hmax.2 x hx'⟩
  · intro v1 v2 h1ne hperm12 hpw
    have h2ne : parseRateLimitHeader v2 ≠ [] := by
      intro h
      rw [h] at hperm12
      exact h1ne hperm12.eq_nil
    have hs1 := sorted_le_sortByWindow (parseRateLimitHeader v1)
    have hs2 := sorted_le_sortByWindow (parseRateLimitHeader v2)
    have hn1 := sortByWindow_ne_nil h1ne
    have hn2 := sortByWindow_ne_nil h2ne
    have hmin1 := headI_min hs1 hn1
    have hmin2 := headI_min hs2 hn2
    have hmax1 := getLastI_max hs1 hn1
    have hmax2 := getLastI_max hs2 hn2
    have hp1 := perm_sortByWindow (parseRateLimitHeader v1)
    have hp2 := perm_sortByWindow (parseRateLimitHeader v2)
    -- members of the original lists
    have hm1 : (sortByWindow (parseRateLimitHeader v1)).headI ∈ parseRateLimitHeader v1 :=
      hp1.subset hmin1.1
    have hm2 : (sortByWindow (parseRateLimitHeader v2)).headI ∈ parseRateLimitHeader v1 :=
      hperm12.mem_iff.mpr (hp2.subset hmin2.1)
    have hM1 : (sortByWindow (parseRateLimitHeader v1)).getLastI ∈ parseRateLimitHeader v1 :=
      hp1.subset hmax1.1
    have hM2 : (sortByWindow (parseRateLimitHeader v2)).getLastI ∈ parseRateLimitHeader v1 :=
      hperm12.mem_iff.mpr (hp2.subset hmax2.1)
    -- equal windows, hence equal pairs
    have hminkey :
        (sortByWindow (parseRateLimitHeader v1)).headI.2 =
          (sortByWindow (parseRateLimitHeader v2)).headI.2 := by
      apply le_antisymm
      · exact hmin1.2 _ (hp1.mem_iff.mpr hm2)
      · exact hmin2.2 _ (hp2.mem_iff.mpr (hperm12.mem_iff.mp hm1))
    have hmaxkey :
        (sortByWindow (parseRateLimitHeader v1)).getLastI.2 =
          (sortByWindow (parseRateLimitHeader v2)).getLastI.2 := by
      apply le_antisymm
      · exact hmax2.2 _ (hp2.mem_iff.mpr (hperm12.mem_iff.mp hM1))
      · exact hmax1.2 _ (hp1.mem_iff.mpr hM2)
    have hminEq := eq_of_mem_pairwise_ne hpw hm1 hm2 hminkey
    have hmaxEq := eq_of_mem_pairwise_ne hpw hM1 hM2 hmaxkey
    have hlk1 := updateFromHeaders_app_lookups st bucket v1 h1ne
    have hlk2 := updateFromHeaders_app_lookups st bucket v2 h2ne
    constructor
    · rw [hlk1.1, hlk2.1, hminEq]
    · rw [hlk1.2, hlk2.2, hmaxEq]

/-- Witness for C5: the header value 20:1,100:120 and its transposition both
set app_short to 20 per 1s and app_long to 100 per 120s. -/
theorem update_from_headers_app_pairs_witness :
    (parseRateLimitHeader ("20:1,100:120".toList) ≠ [] ∧
     (parseRateLimitHeader ("20:1,100:120".toList)).Perm
       (parseRateLimitHeader ("100:120,20:1".toList)) ∧
     (parseRateLimitHeader ("20:1,100:120".toList)).Pairwise
       (fun a b => a.2 ≠ b.2)) ∧
    ((updateFromHeaders initialLimiter "match_ids"
        ⟨some ("20:1,100:120".toList), none, none, none⟩).defaultLimits.lookup
        "app_short" =
      (updateFromHeaders initialLimiter "match_ids"
        ⟨some ("100:120,20:1".toList), none, none, none⟩).defaultLimits.lookup
        "app_short") ∧
    ((updateFromHeaders initialLimiter "match_ids"
        ⟨some ("20:1,100:120".toList), none, none, none⟩).defaultLimits.lookup
        "app_long" =
      (updateFromHeaders initialLimiter "match_ids"
        ⟨some ("100:120,20:1".toList), none, none, none⟩).defaultLimits.lookup
        "app_long") ∧
    (updateFromHeaders initialLimiter "match_ids"
        ⟨some ("20:1,100:120".toList), none, none, none⟩).defaultLimits.lookup
        "app_short" = some (RateLimitConfig.mk 20 1) ∧
    (updateFromHeaders initialLimiter "match_ids"
        ⟨some ("20:1,100:120".toList), none, none, none⟩).defaultLimits.lookup
        "app_long" = some (RateLimitConfig.mk 100 120) := by
  have h := (update_from_headers_app_pairs initialLimiter "match_ids").2
    ("20:1,100:120".toList) ("100:120,20:1".toList) (by decide) (by decide) (by decide)
  exact ⟨⟨by decide, by decide, by decide⟩, h.1, h.2, by decide, by decide⟩

/-- The stride-5 slicer on the empty list yields no batches. -/
theorem chunkAux_nil {α : Type} (fuel : ℕ) : chunkAux fuel ([] : List α) = [] := by
  cases fuel <;> rfl

/-- The stride-5 slicer with no fuel yields no batches. -/
theorem chunkAux_zero {α : Type} (l : List α) : chunkAux 0 l = [] := by
  cases l <;> rfl

/-- With enough fuel, concatenating the batches recovers the input. -/
theorem chunkAux_join {α : Type} :
    ∀ (fuel : ℕ) (l : List α), l.length ≤ fuel → (chunkAux fuel l).flatten = l := by
  intro fuel
  induction fuel with
  | zero =>
      intro l h
      have hl : l = [] := List.eq_nil_of_length_eq_zero (Nat.le_zero.mp h)
      subst hl
      rfl
  | succ n ih =>
      intro l h
      cases l with
      | nil => rfl
      | cons x xs =>
          rw [chunkAux, List.flatten_cons,
            ih (xs.drop 4) (by simp only [List.length_drop]; simp at h; omega)]
          simp [List.take_append_drop]

/-- Every batch is nonempty and holds at most 5 ids. -/
theorem chunkAux_mem {α : Type} :
    ∀ (fuel : ℕ) (l : List α) (b : List α), b ∈ chunkAux fuel l →
      b ≠ [] ∧ b.length ≤ 5 := by
  intro fuel
  induction fuel with
  | zero =>
      intro l b hb
      rw [chunkAux_zero] at hb
      cases hb
  | succ n ih =>
      intro l b hb
      cases l with
      | nil => cases hb
      | cons x xs =>
          rw [chunkAux] at hb
          rcases List.mem_cons.mp hb with rfl | hb
          · refine ⟨by simp, ?_⟩
            have := List.length_take_le 4 xs
            simp only [List.length_cons]
            omega
          · exact ih _ b hb

/-- Every batch except possibly the last holds exactly 5 ids. -/
theorem chunkAux_sizes {α : Type} :
    ∀ (fuel : ℕ) (l : List α) (i : ℕ) (b : List α),
      (chunkAux fuel l).get? i = some b → i + 1 < (chunkAux fuel l).length →
      b.length = 5 := by
  intro fuel
  induction fuel with
  | zero =>
      intro l i b hb _
      rw [chunkAux_zero] at hb
      cases hb
  | succ n ih =>
      intro l i b hb hlt
      cases l with
      | nil => cases hb
      | cons x xs =>
          rw [chunkAux] at hb hlt
          cases i with
          | zero =>
              have hb' : b = x :: xs.take 4 := by
                simpa using hb.symm
              subst hb'
              simp only [List.length_cons] at hlt
              have hrest : chunkAux n (xs.drop 4) ≠ [] := by
                intro hc
                rw [hc] at hlt
                simp at hlt
              have hxs : xs.drop 4 ≠ [] := by
                intro hc
                rw [hc, chunkAux_nil] at hrest
                exact hrest rfl
              have hlen : 4 ≤ xs.length := by
                by_contra hcon
                apply hxs
                apply List.drop_eq_nil_of_le
                omega
              simp [List.length_take]
              omega
          | succ j =>
              simp only [List.get?_cons_succ] at hb
              simp only [List.length_cons] at hlt
              exact ih _ j b hb (by omega)

/-- Unrolling the enqueue fold: it totals the batch sizes and submits one job
per batch, keyed from the batch's first id, last id and size. -/
theorem enqueue_foldl_spec (batches : List (List GameId))
    (acc : ℕ × List (List Char × List GameId)) :
    batches.foldl
      (fun acc batch =>
        (acc.1 + batch.length,
         acc.2 ++ [(jobKeyOf batch.headI batch.getLastI batch.length, batch)])) acc =
      (acc.1 + (batches.map List.length).sum,
       acc.2 ++ batches.map (fun b => (jobKeyOf b.headI b.getLastI b.length, b))) := by
  induction batches generalizing acc with
  | nil => simp
  | cons b t ih =>
      rw [List.foldl_cons, ih]
      simp [Nat.add_assoc]

/-- Claim C4: enqueue_missing_detail_jobs partitions the ids lacking a detail
payload into consecutive batches, every batch nonempty and of size at most 5
and every batch but the last of size exactly 5; each batch is submitted under
the deterministic key built from its first id, last id and size; the returned
count is the number of missing ids, and nothing is submitted when no id is
missing. -/
theorem enqueue_missing_batches (db : DB) (matchIds : List GameId) :
    (missingDetailIds db matchIds = [] →
      enqueueMissingDetailJobs db matchIds = (0, [])) ∧
    (enqueueMissingDetailJobs db matchIds).1 =
      (missingDetailIds db matchIds).length ∧
    ((enqueueMissingDetailJobs db matchIds).2.map (fun j => j.2)).flatten =
      missingDetailIds db matchIds ∧
    (∀ j ∈ (enqueueMissingDetailJobs db matchIds).2,
      j.2 ≠ [] ∧ j.2.length ≤ 5 ∧
      j.1 = jobKeyOf j.2.headI j.2.getLastI j.2.length) ∧
    (∀ (i : ℕ) (b : List GameId),
      ((enqueueMissingDetailJobs db matchIds).2.map (fun j => j.2)).get? i = some b →
      i + 1 < (enqueueMissingDetailJobs db matchIds).2.length → b.length = 5) := by
  by_cases hids : matchIds.isEmpty
  · have he : enqueueMissingDetailJobs db matchIds = (0, []) := by
      unfold enqueueMissingDetailJobs
      rw [if_pos hids]
    have hm : missingDetailIds db matchIds = [] := by
      have : matchIds = [] := by
        cases matchIds with
        | nil => rfl
        | cons a t => cases hids
      subst this
      simp [missingDetailIds]
    rw [he, hm]
    refine ⟨fun _ => rfl, rfl, rfl, ?_, ?_⟩
    · intro j hj; cases hj
    · intro i b hb _; cases hb
  · by_cases hmiss : (missingDetailIds db matchIds).isEmpty
    · have he : enqueueMissingDetailJobs db matchIds = (0, []) := by
        unfold enqueueMissingDetailJobs
        rw [if_neg hids, if_pos hmiss]
      have hm : missingDetailIds db matchIds = [] := by
        cases hh : missingDetailIds db matchIds with
        | nil => rfl
        | cons a t => rw [hh] at hmiss; cases hmiss
      rw [he, hm]
      refine ⟨fun _ => rfl, rfl, rfl, ?_, ?_⟩
      · intro j hj; cases hj
      · intro i b hb _; cases hb
    · have he : enqueueMissingDetailJobs db matchIds =
          (((chunkBatches (missingDetailIds db matchIds)).map List.length).sum,
           (chunkBatches (missingDetailIds db matchIds)).map
             (fun b => (jobKeyOf b.headI b.getLastI b.length, b))) := by
        unfold enqueueMissingDetailJobs
        rw [if_neg hids, if_neg hmiss, enqueue_foldl_spec]
        simp
      have hjoin : (chunkBatches (missingDetailIds db matchIds)).flatten =
          missingDetailIds db matchIds :=
        chunkAux_join _ _ (le_refl _)
      refine ⟨?_, ?_, ?_, ?_, ?_⟩
      · intro hm
        rw [hm] at hmiss
        cases hmiss rfl
      · rw [he]
        simp only
        conv_rhs => rw [← hjoin]
        rw [List.length_flatten]
      · rw [he]
        simp only [List.map_map]
        have hcomp : ((fun j : List Char × List GameId => j.2) ∘
            (fun b : List GameId => (jobKeyOf b.headI b.getLastI b.length, b))) =
            id := funext fun b => rfl
        rw [hcomp, List.map_id, hjoin]
      · rw [he]
        intro j hj
        simp only [List.mem_map] at hj
        obtain ⟨b, hb, rfl⟩ := hj
        have := chunkAux_mem _ _ b hb
        exact ⟨this.1, this.2, rfl⟩
      · rw [he]
        intro i b hb hlt
        simp only [List.map_map] at hb
        have hcomp : ((fun j : List Char × List GameId => j.2) ∘
            (fun b : List GameId => (jobKeyOf b.headI b.getLastI b.length, b))) =
            id := funext fun b => rfl
        rw [hcomp, List.map_id] at hb
        simp only [List.length_map] at hlt
        exact chunkAux_sizes _ _ i b hb hlt

/-- Witness for C4: 12 missing ids yield batches of sizes 5, 5, 2, a total
of 12 enqueued, and each job keyed from its batch's first, last and size. -/
theorem enqueue_missing_batches_witness :
    ((enqueueMissingDetailJobs dbC4 idsC4).2.map (fun j => j.2.length) = [5, 5, 2]) ∧
    (enqueueMissingDetailJobs dbC4 idsC4).1 = 12 ∧
    (missingDetailIds dbC4 idsC4).length = 12 ∧
    (∀ j ∈ (enqueueMissingDetailJobs dbC4 idsC4).2,
      j.1 = jobKeyOf j.2.headI j.2.getLastI j.2.length) :=
  ⟨by decide, by
    rw [(enqueue_missing_batches dbC4 idsC4).2.1]
    decide, by decide,
   fun j hj => ((enqueue_missing_batches dbC4 idsC4).2.2.2.1 j hj).2.2⟩

/-- Folding min over a list yields the seed or a member. -/
theorem foldl_min_mem : ∀ (xs : List ℚ) (x : ℚ), xs.foldl min x ∈ x :: xs := by
  intro xs
  induction xs with
  | nil => intro x; simp
  | cons y ys ih =>
      intro x
      rw [List.foldl_cons]
      rcases List.mem_cons.mp (ih (min x y)) with he | hm
      · rcases min_choice x y with h1 | h1
        · rw [he, h1]
          exact List.mem_cons_self _ _
        · rw [he, h1]
          exact List.mem_cons_of_mem x (List.mem_cons_self _ _)
      · exact List.mem_cons_of_mem x (List.mem_cons_of_mem y hm)

/-- The minimum of a sorted set is one of its members. -/
theorem listMin_mem {l : List ℚ} {o : ℚ} (h : listMin l = some o) : o ∈ l := by
  cases l with
  | nil => cases h
  | cons x xs =>
      rw [listMin] at h
      injection h with h
      rw [← h]
      exact foldl_min_mem xs x

/-- An empty minimum means an empty sorted set. -/
theorem listMin_eq_none {l : List ℚ} (h : listMin l = none) : l = [] := by
  cases l with
  | nil => rfl
  | cons x xs => cases h

/-- Eviction rewrites the evicted key and only that key. -/
theorem lookup_evictStore (store : List (String × List ℚ)) (b : String)
    (es : List ℚ) :
    (evictStore store b es).lookup b = (store.lookup b).map (fun _ => es) := by
  induction store with
  | nil => rfl
  | cons p rest ih =>
      obtain ⟨k, v⟩ := p
      by_cases h : k = b
      · subst h
        simp [evictStore, List.lookup]
      · have hbeq : (b == k) = false := beq_false_of_ne (Ne.symm h)
        simp [evictStore, h, List.lookup, hbeq, ih]

/-- After zadd the key holds exactly the written member list. -/
theorem lookup_setStore (store : List (String × List ℚ)) (b : String)
    (es : List ℚ) : (setStore store b es).lookup b = some es := by
  induction store with
  | nil => simp [setStore, List.lookup]
  | cons p rest ih =>
      obtain ⟨k, v⟩ := p
      by_cases h : k = b
      · subst h
        simp [setStore, List.lookup]
      · have hbeq : (b == k) = false := beq_false_of_ne (Ne.symm h)
        simp [setStore, h, List.lookup, hbeq, ih]

/-- Recording a request appends its timestamp to the bucket. -/
theorem bucketEntries_record (st : LimiterState) (bucket : String) (now : ℚ) :
    bucketEntries (recordRequest st bucket now) bucket =
      bucketEntries st bucket ++ [now] := by
  simp [bucketEntries, recordRequest, lookup_setStore]

/-- check_limit admits with no wait when the bucket is configured, no global
cooldown is active, and the surviving count is below max_requests. -/
theorem checkLimit_admits (st : LimiterState) (bucket : String) (now : ℚ)
    (cfg : RateLimitConfig) (hlk : lookupLimit st bucket = some cfg)
    (hra : st.retryAfter ≤ now)
    (hcount : ((windowSurvivors st bucket now cfg).length : ℤ) < cfg.max_requests) :
    checkLimit st bucket now =
      ((true, 0),
       { st with store := evictStore st.store bucket (windowSurvivors st bucket now cfg) }) := by
  unfold checkLimit
  rw [if_neg (not_lt.mpr hra)]
  unfold checkBucketOnly
  rw [hlk]
  dsimp only
  rw [if_neg (not_le.mpr hcount)]

/-- check_limit denies when the bucket is configured, no global cooldown is
active, and the surviving count has reached max_requests; the wait is derived
from the oldest surviving timestamp, with the window/max fallback. -/
theorem checkLimit_deny (st : LimiterState) (bucket : String) (now : ℚ)
    (cfg : RateLimitConfig) (hlk : lookupLimit st bucket = some cfg)
    (hra : st.retryAfter ≤ now)
    (hcount : ((windowSurvivors st bucket now cfg).length : ℤ) ≥ cfg.max_requests) :
    checkLimit st bucket now =
      ((false,
        match listMin (windowSurvivors st bucket now cfg) with
        | some o => max 0 (o + (cfg.window_seconds : ℚ) - now)
        | none => (cfg.window_seconds : ℚ) / (cfg.max_requests : ℚ)),
       { st with store := evictStore st.store bucket (windowSurvivors st bucket now cfg) }) := by
  unfold checkLimit
  rw [if_neg (not_lt.mpr hra)]
  unfold checkBucketOnly
  rw [hlk]
  dsimp only
  rw [if_pos hcount]
  cases listMin (windowSurvivors st bucket now cfg) <;> rfl

/-- Any surviving entry is strictly newer than the window start. -/
theorem windowSurvivors_gt {st : LimiterState} {bucket : String} {now : ℚ}
    {cfg : RateLimitConfig} {u : ℚ} (hu : u ∈ windowSurvivors st bucket now cfg) :
    now - (cfg.window_seconds : ℚ) < u := by
  have := List.mem_filter.mp hu
  exact of_decide_eq_true this.2

/-- Repeated check-and-record admits for as long as the bucket has room: with
the bucket configured, no cooldown over the call times, all prior entries and
all call times inside one window starting at t0, and room for all the calls,
every call is admitted. -/
theorem admitSeq_all (bucket : String) (cfg : RateLimitConfig) :
    ∀ (ts : List ℚ) (st : LimiterState) (t0 : ℚ),
      lookupLimit st bucket = some cfg →
      (∀ t ∈ ts, st.retryAfter ≤ t) →
      (∀ t ∈ ts, t0 ≤ t ∧ t < t0 + (cfg.window_seconds : ℚ)) →
      (∀ u ∈ bucketEntries st bucket, t0 ≤ u) →
      ((bucketEntries st bucket).length : ℤ) + ts.length ≤ cfg.max_requests →
      admitSeq st bucket ts = true := by
  intro ts
  induction ts with
  | nil => intro st t0 _ _ _ _ _; rfl
  | cons t rest ih =>
      intro st t0 hlk hra hwin hent hlen
      have hra_t : st.retryAfter ≤ t := hra t (List.mem_cons_self _ _)
      have hw_t := hwin t (List.mem_cons_self _ _)
      have hsurv : windowSurvivors st bucket t cfg = bucketEntries st bucket := by
        apply List.filter_eq_self.mpr
        intro u hu
        have h1 : t0 ≤ u := hent u hu
        have h2 : t < t0 + (cfg.window_seconds : ℚ) := hw_t.2
        exact decide_eq_true (by linarith)
      have hcount : ((windowSurvivors st bucket t cfg).length : ℤ) < cfg.max_requests := by
        rw [hsurv]
        simp only [List.length_cons] at hlen
        omega
      have hchk := checkLimit_admits st bucket t cfg hlk hra_t hcount
      rw [admitSeq, hchk]
      simp only [if_true]
      set stEv : LimiterState :=
        { st with store := evictStore st.store bucket (windowSurvivors st bucket t cfg) }
        with hstEv
      have hentEv : bucketEntries stEv bucket = bucketEntries st bucket := by
        rw [hstEv]
        simp only [bucketEntries, lookup_evictStore]
        cases hl : st.store.lookup bucket with
        | none => simp [bucketEntries, hl]
        | some v =>
            simp only [Option.map_some, Option.getD_some]
            rw [hsurv]
            simp [bucketEntries, hl]
      apply ih (recordRequest stEv bucket t) t0
      · exact hlk
      · intro t2 ht2
        exact hra t2 (List.mem_cons_of_mem t ht2)
      · intro t2 ht2
        exact hwin t2 (List.mem_cons_of_mem t ht2)
      · intro u hu
        rw [bucketEntries_record, hentEv] at hu
        rcases List.mem_append.mp hu with hu | hu
        · exact hent u hu
        · rw [List.mem_singleton.mp hu]
          exact hw_t.1
      · rw [bucketEntries_record, hentEv]
        simp only [List.length_append, List.length_cons, List.length_nil] at hlen ⊢
        omega

/-- Claim C1: for a configured bucket with no active global cooldown,
check_limit admits with wait 0 exactly while the count of entries inside the
window is strictly below max_requests, so that max_requests check-and-record
calls inside one window all succeed; once the count reaches max_requests it
denies with a strictly positive wait equal to the time until the oldest
surviving entry leaves the window, with window/max as fallback when no
oldest timestamp exists. -/
theorem check_limit_admission (st : LimiterState) (bucket : String) (now : ℚ)
    (cfg : RateLimitConfig)
    (hcfg : lookupLimit st bucket = some cfg)
    (hcool : st.retryAfter ≤ now)
    (hmax : 0 < cfg.max_requests)
    (hwin : 0 < cfg.window_seconds) :
    (((windowSurvivors st bucket now cfg).length : ℤ) < cfg.max_requests →
      (checkLimit st bucket now).1 = (true, 0)) ∧
    (((windowSurvivors st bucket now cfg).length : ℤ) ≥ cfg.max_requests →
      (checkLimit st bucket now).1.1 = false ∧
      0 < (checkLimit st bucket now).1.2 ∧
      (checkLimit st bucket now).1.2 =
        (match listMin (windowSurvivors st bucket now cfg) with
         | some o => o + (cfg.window_seconds : ℚ) - now
         | none => (cfg.window_seconds : ℚ) / (cfg.max_requests : ℚ))) ∧
    (∀ (t0 : ℚ) (ts : List ℚ),
      bucketEntries st bucket = [] →
      (∀ t ∈ ts, st.retryAfter ≤ t) →
      (∀ t ∈ ts, t0 ≤ t ∧ t < t0 + (cfg.window_seconds : ℚ)) →
      ((ts.length : ℤ) ≤ cfg.max_requests) →
      admitSeq st bucket ts = true) := by
  refine ⟨?_, ?_, ?_⟩
  · intro hcount
    rw [checkLimit_admits st bucket now cfg hcfg hcool hcount]
  · intro hcount
    rw [checkLimit_deny st bucket now cfg hcfg hcool hcount]
    cases hmin : listMin (windowSurvivors st bucket now cfg) with
    | none =>
        exfalso
        rw [listMin_eq_none hmin] at hcount
        simp at hcount
        omega
    | some o =>
        have ho := windowSurvivors_gt (listMin_mem hmin)
        have hpos : (0 : ℚ) < o + (cfg.window_seconds : ℚ) - now := by linarith
        refine ⟨rfl, ?_, ?_⟩
        · simpa [max_eq_right (le_of_lt hpos)] using hpos
        · simp [max_eq_right (le_of_lt hpos)]
  · intro t0 ts hempty hra hwint hlen
    apply admitSeq_all bucket cfg ts st t0 hcfg hra hwint
    · rw [hempty]
      intro u hu
      cases hu
    · rw [hempty]
      simpa using hlen

/-- Witness for C1 at a one-per-two-seconds bucket holding one entry: the
check at time 1 is denied with wait 2, the time until the entry at time 1
leaves the 2 second window. -/
theorem check_limit_admission_witness :
    (lookupLimit limW "app_short" = some ⟨1, 2⟩ ∧
     limW.retryAfter ≤ 1 ∧ (0 : ℤ) < 1 ∧ (0 : ℤ) < 2 ∧
     ((windowSurvivors limW "app_short" 1 ⟨1, 2⟩).length : ℤ) ≥ 1) ∧
    (checkLimit limW "app_short" 1).1.1 = false ∧
    0 < (checkLimit limW "app_short" 1).1.2 ∧
    (checkLimit limW "app_short" 1).1.2 =
      (match listMin (windowSurvivors limW "app_short" 1 ⟨1, 2⟩) with
       | some o => o + ((2 : ℤ) : ℚ) - 1
       | none => ((2 : ℤ) : ℚ) / ((1 : ℤ) : ℚ)) := by
  have hsurv : windowSurvivors limW "app_short" 1 ⟨1, 2⟩ = [1] := by
    rw [windowSurvivors]
    have hent : bucketEntries limW "app_short" = [1] := by
      simp [bucketEntries, limW, List.lookup]
    rw [hent]
    norm_num [List.filter]
  have h1 : lookupLimit limW "app_short" = some ⟨1, 2⟩ := by
    simp [lookupLimit, limW, List.lookup]
  have h2 : limW.retryAfter ≤ 1 := by
    norm_num [limW]
  have h5 : ((windowSurvivors limW "app_short" 1 ⟨1, 2⟩).length : ℤ) ≥ 1 := by
    rw [hsurv]
    norm_num
  exact ⟨⟨h1, h2, by decide, by decide, h5⟩,
    (check_limit_admission limW "app_short" 1 ⟨1, 2⟩ h1 h2 (by decide) (by decide)).2.1 h5⟩

/-- applyDetail changes only the payload columns, never the key. -/
theorem applyDetail_game_id (m : MatchRow) (p : Payload) :
    (applyDetail m p).game_id = m.game_id := by
  unfold applyDetail
  by_cases h : p.truthy = true <;> cases hg : p.infoGameStart <;> simp [h, hg]

/-- applyDetail always stores the fetched payload as the row's game_info. -/
theorem applyDetail_game_info (m : MatchRow) (p : Payload) :
    (applyDetail m p).game_info = some p := by
  unfold applyDetail
  by_cases h : p.truthy = true <;> cases hg : p.infoGameStart <;> simp [h, hg]

/-- Mapping preserves emptiness. -/
theorem isEmpty_map {α β : Type} (f : α → β) (l : List α) :
    (l.map f).isEmpty = l.isEmpty := by
  cases l <;> rfl

/-- A list splits into the part satisfying a predicate and the rest. -/
theorem length_filter_not {α : Type} (p : α → Bool) (l : List α) :
    (l.filter p).length + (l.filter (fun a => !p a)).length = l.length := by
  induction l with
  | nil => rfl
  | cons a t ih =>
      cases hp : p a <;> simp [List.filter_cons, hp, ← ih] <;> omega

/-- The detail-job loop invariant: under one row per processed id, the loop
counts one fetch per non-failing id, collects one error entry per failing id
in order, sets pending_commit exactly when some id succeeded, and leaves
every successfully fetched payload stored on its row. -/
theorem fetchJobAux_spec (fetch : GameId → Except RiotRequestError Payload)
    (platform : GameId) :
    ∀ (ids : List GameId) (s : DetailJobState),
      (∀ g ∈ ids, s.rows.countP (fun m => m.game_id == g) = 1) →
      (fetchJobAux fetch platform ids s).fetched =
          s.fetched + (ids.filter (fun g => !fetchFails fetch platform g)).length ∧
      (fetchJobAux fetch platform ids s).errors.map Prod.fst =
          s.errors.map Prod.fst ++ ids.filter (fetchFails fetch platform) ∧
      (fetchJobAux fetch platform ids s).pendingCommit =
          (s.pendingCommit ||
            !(ids.filter (fun g => !fetchFails fetch platform g)).isEmpty) ∧
      (∀ (g : GameId) (p : Payload),
        fetch (normalizeMatchId platform g).1 = .ok p →
        ((∃ m ∈ s.rows, m.game_id = g ∧ m.game_info = some p) ∨ g ∈ ids) →
        ∃ m ∈ (fetchJobAux fetch platform ids s).rows,
          m.game_id = g ∧ m.game_info = some p) := by
  intro ids
  induction ids with
  | nil =>
      intro s _
      refine ⟨by simp [fetchJobAux], by simp [fetchJobAux], by simp [fetchJobAux], ?_⟩
      intro g p _ hor
      rcases hor with h | h
      · exact h
      · cases h
  | cons mid rest ih =>
      intro s hcount
      have hmid := hcount mid (List.mem_cons_self _ _)
      cases hfe : fetch (normalizeMatchId platform mid).1 with
      | error e =>
          have hfail : fetchFails fetch platform mid = true := by
            rw [fetchFails, hfe]
          have hstep : fetchJobAux fetch platform (mid :: rest) s =
              fetchJobAux fetch platform rest
                { s with errors := s.errors ++ [(mid, e.message)] } := by
            rw [fetchJobAux, hfe]
          have ihh := ih { s with errors := s.errors ++ [(mid, e.message)] }
            (fun g hg => hcount g (List.mem_cons_of_mem _ hg))
          rw [hstep]
          refine ⟨?_, ?_, ?_, ?_⟩
          · rw [ihh.1]
            simp [List.filter_cons, hfail]
          · rw [ihh.2.1]
            simp [List.filter_cons, hfail]
          · rw [ihh.2.2.1]
            simp [List.filter_cons, hfail]
          · intro g p hok hor
            apply ihh.2.2.2 g p hok
            rcases hor with h | h
            · exact Or.inl h
            · rcases List.mem_cons.mp h with rfl | h
              · rw [hok] at hfe
                cases hfe
              · exact Or.inr h
      | ok payload =>
          have hsucc : fetchFails fetch platform mid = false := by
            rw [fetchFails, hfe]
          have hfind : ∃ m0, s.rows.find? (fun m => m.game_id == mid) = some m0 := by
            cases hf : s.rows.find? (fun m => m.game_id == mid) with
            | some m0 => exact ⟨m0, rfl⟩
            | none =>
                exfalso
                have hz : s.rows.countP (fun m => m.game_id == mid) = 0 := by
                  rw [List.countP_eq_zero]
                  intro m hm
                  exact List.find?_eq_none.mp hf m hm
                rw [hz] at hmid
                cases hmid
          obtain ⟨m0, hm0⟩ := hfind
          set s' : DetailJobState :=
            { rows := s.rows.map
                (fun m => if m.game_id == mid then applyDetail m payload else m),
              fetched := s.fetched + 1,
              errors := s.errors,
              pendingCommit := true } with hs'
          have hstep : fetchJobAux fetch platform (mid :: rest) s =
              fetchJobAux fetch platform rest s' := by
            rw [fetchJobAux, hfe, hm0]
          have hcount' : ∀ g ∈ rest, s'.rows.countP (fun m => m.game_id == g) = 1 := by
            intro g hg
            rw [hs']
            simp only [List.countP_map]
            have hfun : ((fun m : MatchRow => m.game_id == g) ∘
                (fun m => if m.game_id == mid then applyDetail m payload else m)) =
                (fun m => m.game_id == g) := by
              funext m
              by_cases hm : m.game_id == mid
              · simp [Function.comp, hm, applyDetail_game_id]
              · simp [Function.comp, hm]
            rw [hfun]
            exact hcount g (List.mem_cons_of_mem _ hg)
          have ihh := ih s' hcount'
          rw [hstep]
          refine ⟨?_, ?_, ?_, ?_⟩
          · rw [ihh.1, hs']
            simp only [List.filter_cons, hsucc]
            simp [Nat.add_assoc, Nat.add_comm 1]
          · rw [ihh.2.1, hs']
            simp [List.filter_cons, hsucc]
          · rw [ihh.2.2.1, hs']
            simp [List.filter_cons, hsucc]
          · intro g p hok hor
            apply ihh.2.2.2 g p hok
            by_cases hgm : g = mid
            · subst hgm
              rw [hok] at hfe
              injection hfe with hpe
              left
              have hmem0 := List.find?_some hm0
              have hmemrow := List.mem_of_find?_eq_some hm0
              refine ⟨applyDetail m0 payload, ?_, ?_, ?_⟩
              · rw [hs']
                simp only [List.mem_map]
                exact ⟨m0, hmemrow, by simp [hmem0]⟩
              · rw [applyDetail_game_id]
                exact eq_of_beq hmem0
              · rw [hpe]
                exact applyDetail_game_info m0 payload
            · rcases hor with h | h
              · left
                obtain ⟨m, hm, hmg, hmi⟩ := h
                refine ⟨m, ?_, hmg, hmi⟩
                rw [hs']
                simp only [List.mem_map]
                refine ⟨m, hm, ?_⟩
                have : (m.game_id == mid) = false := by
                  rw [beq_eq_false_iff_ne]
                  rw [hmg]
                  exact hgm
                rw [this]
                simp
              · rcases List.mem_cons.mp h with rfl | h
                · exact absurd rfl hgm
                · exact Or.inr h

/-- Claim C6: with one match row per id, a per-item RiotRequestError does not
abort the batch: the job fetches every non-failing id, collects exactly one
error entry per failing id, reports partial exactly when some id failed and
ok otherwise, commits exactly once when anything was fetched and not at all
otherwise, and every successfully fetched payload is stored on its row in the
committed table. -/
theorem detail_job_partial_isolation (db : DB)
    (fetch : GameId → Except RiotRequestError Payload) (platform : GameId)
    (ids : List GameId)
    (h1 : ∀ g ∈ ids, db.rows.countP (fun m => m.game_id == g) = 1) :
    (fetchMatchDetailsJob db fetch platform ids).1.fetched +
        (ids.filter (fetchFails fetch platform)).length = ids.length ∧
    (fetchMatchDetailsJob db fetch platform ids).1.errors.map Prod.fst =
        ids.filter (fetchFails fetch platform) ∧
    (fetchMatchDetailsJob db fetch platform ids).1.status =
        (if (ids.filter (fetchFails fetch platform)).isEmpty then "ok"
         else "partial") ∧
    (fetchMatchDetailsJob db fetch platform ids).2.2 =
        (if (fetchMatchDetailsJob db fetch platform ids).1.fetched = 0 then 0
         else 1) ∧
    (∀ g ∈ ids, ∀ p : Payload, fetch (normalizeMatchId platform g).1 = .ok p →
      ∃ m ∈ (fetchMatchDetailsJob db fetch platform ids).2.1.rows,
        m.game_id = g ∧ m.game_info = some p) := by
  have hspec := fetchJobAux_spec fetch platform ids ⟨db.rows, 0, [], false⟩ h1
  have hA := hspec.1
  have hB := hspec.2.1
  have hC := hspec.2.2.1
  have hD := hspec.2.2.2
  simp only [List.map_nil, List.nil_append] at hB
  simp only [Bool.false_or] at hC
  have hfet : (fetchMatchDetailsJob db fetch platform ids).1.fetched =
      (fetchJobAux fetch platform ids ⟨db.rows, 0, [], false⟩).fetched := rfl
  have herr : (fetchMatchDetailsJob db fetch platform ids).1.errors =
      (fetchJobAux fetch platform ids ⟨db.rows, 0, [], false⟩).errors := rfl
  have hstat : (fetchMatchDetailsJob db fetch platform ids).1.status =
      (if (fetchJobAux fetch platform ids ⟨db.rows, 0, [], false⟩).errors.isEmpty
       then "ok" else "partial") := rfl
  have hcom : (fetchMatchDetailsJob db fetch platform ids).2.2 =
      (if (fetchJobAux fetch platform ids ⟨db.rows, 0, [], false⟩).pendingCommit
       then (({ db with
         rows := (fetchJobAux fetch platform ids ⟨db.rows, 0, [], false⟩).rows }, 1) :
           DB × ℕ)
       else ((db, 0) : DB × ℕ)).2 := rfl
  have hrows : (fetchMatchDetailsJob db fetch platform ids).2.1 =
      (if (fetchJobAux fetch platform ids ⟨db.rows, 0, [], false⟩).pendingCommit
       then (({ db with
         rows := (fetchJobAux fetch platform ids ⟨db.rows, 0, [], false⟩).rows }, 1) :
           DB × ℕ)
       else ((db, 0) : DB × ℕ)).1 := rfl
  have hlen := length_filter_not (fetchFails fetch platform) ids
  refine ⟨?_, ?_, ?_, ?_, ?_⟩
  · have e1 : (fetchMatchDetailsJob db fetch platform ids).1.fetched =
        (ids.filter (fun g => !fetchFails fetch platform g)).length := by
      rw [hfet, hA]
      simp
    rw [e1]
    omega
  · rw [herr, hB]
  · rw [hstat]
    have hie :
        (fetchJobAux fetch platform ids ⟨db.rows, 0, [], false⟩).errors.isEmpty =
          (ids.filter (fetchFails fetch platform)).isEmpty := by
      rw [← hB, isEmpty_map]
    rw [hie]
  · rw [hcom, hfet, hC, hA]
    cases hsu : ids.filter (fun g => !fetchFails fetch platform g) with
    | nil => simp [hsu]
    | cons x t => simp [hsu]
  · intro g hg p hok
    have hgs : g ∈ ids.filter (fun g => !fetchFails fetch platform g) := by
      rw [List.mem_filter]
      refine ⟨hg, ?_⟩
      rw [fetchFails, hok]
      rfl
    have hpc : (fetchJobAux fetch platform ids ⟨db.rows, 0, [], false⟩).pendingCommit =
        true := by
      rw [hC]
      cases hsu : ids.filter (fun g => !fetchFails fetch platform g) with
      | nil => rw [hsu] at hgs; cases hgs
      | cons x t => rfl
    have hrows2 : (fetchMatchDetailsJob db fetch platform ids).2.1.rows =
        (fetchJobAux fetch platform ids ⟨db.rows, 0, [], false⟩).rows := by
      rw [hrows, hpc]
      rfl
    rw [hrows2]
    exact hD g p hok (Or.inr hg)

/-- Witness for C6: five ids of which exactly one fails upstream; four rows
fetched, one error entry, partial status, one commit. -/
theorem detail_job_partial_isolation_witness :
    (∀ g ∈ idsC6, dbC6.rows.countP (fun m => m.game_id == g) = 1) ∧
    (fetchMatchDetailsJob dbC6 fetchC6 ['n', 'a', '1'] idsC6).1.fetched = 4 ∧
    (fetchMatchDetailsJob dbC6 fetchC6 ['n', 'a', '1'] idsC6).1.errors.length = 1 ∧
    (fetchMatchDetailsJob dbC6 fetchC6 ['n', 'a', '1'] idsC6).1.status = "partial" ∧
    (fetchMatchDetailsJob dbC6 fetchC6 ['n', 'a', '1'] idsC6).2.2 = 1 := by
  have h := detail_job_partial_isolation dbC6 fetchC6 ['n', 'a', '1'] idsC6 (by decide)
  have hf : (idsC6.filter (fetchFails fetchC6 ['n', 'a', '1'])).length = 1 := by decide
  have hl : idsC6.length = 5 := rfl
  have h1 := h.1
  rw [hf, hl] at h1
  refine ⟨by decide, by omega, ?_, by decide, by decide⟩
  have h2 := h.2.1
  have := congrArg List.length h2
  rw [List.length_map, hf] at this
  exact this

/-- The wait_if_needed loop invariant, indexed by the retry counter k and the
remaining budget: the loop issues at most `remaining` more composite checks,
returns after the first admitted check having recorded the request, raises
with all checks denied when the budget runs out, and sleeps
max(reported wait, backoff + jitter) after every denied check. -/
theorem waitIfNeededAux_spec (st0 : LimiterState) (bucket : String)
    (times rand : ℕ → ℚ) :
    ∀ (remaining k : ℕ),
      (waitIfNeededAux bucket times rand k remaining
          (trajState st0 bucket times k)).checks ≤ remaining ∧
      (0 < remaining →
        0 < (waitIfNeededAux bucket times rand k remaining
          (trajState st0 bucket times k)).checks) ∧
      ((waitIfNeededAux bucket times rand k remaining
          (trajState st0 bucket times k)).ok = true →
        (checkAt st0 bucket times
          (k + (waitIfNeededAux bucket times rand k remaining
            (trajState st0 bucket times k)).checks - 1)).1 = true ∧
        (∀ j < (waitIfNeededAux bucket times rand k remaining
            (trajState st0 bucket times k)).checks - 1,
          (checkAt st0 bucket times (k + j)).1 = false) ∧
        (waitIfNeededAux bucket times rand k remaining
            (trajState st0 bucket times k)).state =
          recordAllBuckets
            (trajState st0 bucket times
              (k + (waitIfNeededAux bucket times rand k remaining
                (trajState st0 bucket times k)).checks))
            bucket
            (times (k + (waitIfNeededAux bucket times rand k remaining
              (trajState st0 bucket times k)).checks - 1))) ∧
      ((waitIfNeededAux bucket times rand k remaining
          (trajState st0 bucket times k)).ok = false →
        (waitIfNeededAux bucket times rand k remaining
          (trajState st0 bucket times k)).checks = remaining ∧
        ∀ j < remaining, (checkAt st0 bucket times (k + j)).1 = false) ∧
      ((waitIfNeededAux bucket times rand k remaining
          (trajState st0 bucket times k)).sleeps.length =
        if (waitIfNeededAux bucket times rand k remaining
            (trajState st0 bucket times k)).ok = true then
          (waitIfNeededAux bucket times rand k remaining
            (trajState st0 bucket times k)).checks - 1
        else
          (waitIfNeededAux bucket times rand k remaining
            (trajState st0 bucket times k)).checks) ∧
      (∀ j < (waitIfNeededAux bucket times rand k remaining
          (trajState st0 bucket times k)).sleeps.length,
        (waitIfNeededAux bucket times rand k remaining
          (trajState st0 bucket times k)).sleeps.get? j =
          some (max (checkAt st0 bucket times (k + j)).2
            (backoffAt (k + j) + backoffAt (k + j) *
              RiotRateLimiter.JITTER_FACTOR * rand (k + j)))) := by
  intro remaining
  induction remaining with
  | zero =>
      intro k
      refine ⟨le_refl _, by omega, ?_, ?_, rfl, ?_⟩
      · intro h
        cases h
      · intro _
        exact ⟨rfl, by omega⟩
      · intro j hj
        cases hj
  | succ rem ih =>
      intro k
      have htraj : trajState st0 bucket times (k + 1) =
          (checkAllBuckets (trajState st0 bucket times k) bucket (times k)).2 := rfl
      have hchk : checkAt st0 bucket times k =
          (checkAllBuckets (trajState st0 bucket times k) bucket (times k)).1 := rfl
      by_cases hcc :
          (checkAllBuckets (trajState st0 bucket times k) bucket (times k)).1.1 = true
      · have hr : waitIfNeededAux bucket times rand k (rem + 1)
            (trajState st0 bucket times k) =
            ⟨true,
             recordAllBuckets
               (checkAllBuckets (trajState st0 bucket times k) bucket (times k)).2
               bucket (times k), 1, []⟩ := by
          rw [waitIfNeededAux]
          simp only [hcc, if_true]
        rw [hr]
        dsimp only
        refine ⟨by omega, by omega, ?_, ?_, rfl, ?_⟩
        · intro _
          refine ⟨?_, ?_, ?_⟩
          · have he : k + 1 - 1 = k := by omega
            rw [he, hchk]
            exact hcc
          · intro j hj
            omega
          · rw [htraj]
            have he : k + 1 - 1 = k := by omega
            rw [he]
        · intro h
          cases h
        · intro j hj
          cases hj
      · have hr : waitIfNeededAux bucket times rand k (rem + 1)
            (trajState st0 bucket times k) =
            ⟨(waitIfNeededAux bucket times rand (k + 1) rem
                (trajState st0 bucket times (k + 1))).ok,
             (waitIfNeededAux bucket times rand (k + 1) rem
                (trajState st0 bucket times (k + 1))).state,
             (waitIfNeededAux bucket times rand (k + 1) rem
                (trajState st0 bucket times (k + 1))).checks + 1,
             max (checkAllBuckets (trajState st0 bucket times k) bucket (times k)).1.2
               (min (RiotRateLimiter.BASE_BACKOFF_SECONDS * 2 ^ k)
                  RiotRateLimiter.MAX_BACKOFF_SECONDS +
                min (RiotRateLimiter.BASE_BACKOFF_SECONDS * 2 ^ k)
                  RiotRateLimiter.MAX_BACKOFF_SECONDS *
                  RiotRateLimiter.JITTER_FACTOR * rand k) ::
               (waitIfNeededAux bucket times rand (k + 1) rem
                 (trajState st0 bucket times (k + 1))).sleeps⟩ := by
          rw [waitIfNeededAux]
          simp only [hcc, if_false, Bool.false_eq_true]
          rw [htraj]
        have IH := ih (k + 1)
        rw [hr]
        set r := waitIfNeededAux bucket times rand (k + 1) rem
          (trajState st0 bucket times (k + 1)) with hrdef
        have hA := IH.1
        dsimp only
        have hzero : rem = 0 → r.ok = false := by
          intro hz
          rw [hrdef, hz]
          rfl
        refine ⟨by omega, fun _ => by omega, ?_, ?_, ?_, ?_⟩
        · intro hok
          have hok1 : 0 < r.checks := by
            cases rem with
            | zero =>
                rw [hzero rfl] at hok
                cases hok
            | succ rem2 => exact IH.2.1 (by omega)
          have hC := IH.2.2.1 hok
          have e1 : k + (r.checks + 1) = k + 1 + r.checks := by omega
          refine ⟨?_, ?_, ?_⟩
          · rw [e1]
            exact hC.1
          · intro j hj
            cases j with
            | zero =>
                rw [Nat.add_zero, hchk]
                simp [hcc]
            | succ j2 =>
                have he : k + (j2 + 1) = k + 1 + j2 := by omega
                rw [he]
                exact hC.2.1 j2 (by omega)
          · rw [e1]
            exact hC.2.2
        · intro hok
          have hD := IH.2.2.2.1 hok
          refine ⟨by omega, ?_⟩
          intro j hj
          cases j with
          | zero =>
              rw [Nat.add_zero, hchk]
              simp [hcc]
          | succ j2 =>
              have he : k + (j2 + 1) = k + 1 + j2 := by omega
              rw [he]
              exact hD.2 j2 (by omega)
        · simp only [List.length_cons]
          have hF := IH.2.2.2.2.1
          by_cases hok : r.ok = true
          · have hok1 : 0 < r.checks := by
              cases rem with
              | zero =>
                  rw [hzero rfl] at hok
                  cases hok
              | succ rem2 => exact IH.2.1 (by omega)
            rw [hF]
            simp only [hok, if_true]
            omega
          · simp only [Bool.not_eq_true] at hok
            rw [hF]
            simp [hok]
        · simp only [List.length_cons]
          intro j hj
          cases j with
          | zero =>
              simp only [List.get?]
              rw [Nat.add_zero, hchk, backoffAt]
          | succ j2 =>
              simp only [List.get?]
              have he : k + (j2 + 1) = k + 1 + j2 := by omega
              rw [he]
              exact IH.2.2.2.2.2 j2 (by omega)

/-- Claim C9: wait_if_needed always terminates within the retry ceiling: it
performs between 1 and MAX_RETRIES = 5 composite admission checks; when it
returns normally the last check was admitted, every earlier check was denied,
and the request has been recorded in the operation bucket and the app-level
buckets; when it raises, all 5 checks were denied; and between denied checks
it sleeps exactly max(reported wait, capped exponential backoff plus jitter). -/
theorem wait_if_needed_bounded (st : LimiterState) (bucket : String)
    (times rand : ℕ → ℚ) :
    (0 < (waitIfNeeded st bucket times rand).checks ∧
      (waitIfNeeded st bucket times rand).checks ≤ RiotRateLimiter.MAX_RETRIES) ∧
    ((waitIfNeeded st bucket times rand).ok = true →
      (checkAt st bucket times
        ((waitIfNeeded st bucket times rand).checks - 1)).1 = true ∧
      (∀ j < (waitIfNeeded st bucket times rand).checks - 1,
        (checkAt st bucket times j).1 = false) ∧
      (waitIfNeeded st bucket times rand).state =
        recordAllBuckets
          (trajState st bucket times (waitIfNeeded st bucket times rand).checks)
          bucket (times ((waitIfNeeded st bucket times rand).checks - 1))) ∧
    ((waitIfNeeded st bucket times rand).ok = false →
      (waitIfNeeded st bucket times rand).checks = RiotRateLimiter.MAX_RETRIES ∧
      ∀ j < RiotRateLimiter.MAX_RETRIES, (checkAt st bucket times j).1 = false) ∧
    ((waitIfNeeded st bucket times rand).sleeps.length =
      if (waitIfNeeded st bucket times rand).ok = true then
        (waitIfNeeded st bucket times rand).checks - 1
      else (waitIfNeeded st bucket times rand).checks) ∧
    (∀ j < (waitIfNeeded st bucket times rand).sleeps.length,
      (waitIfNeeded st bucket times rand).sleeps.get? j =
        some (max (checkAt st bucket times j).2
          (backoffAt j + backoffAt j * RiotRateLimiter.JITTER_FACTOR * rand j))) := by
  have h := waitIfNeededAux_spec st bucket times rand RiotRateLimiter.MAX_RETRIES 0
  simp only [Nat.zero_add] at h
  have hw : waitIfNeeded st bucket times rand =
      waitIfNeededAux bucket times rand 0 RiotRateLimiter.MAX_RETRIES
        (trajState st bucket times 0) := rfl
  rw [hw]
  refine ⟨⟨h.2.1 (by norm_num [RiotRateLimiter.MAX_RETRIES]), h.1⟩,
    h.2.2.1, h.2.2.2.1, h.2.2.2.2.1, h.2.2.2.2.2⟩

/-- Witness for C9: from the fresh default state, the first composite check
is admitted, so the loop returns after exactly one check. -/
theorem wait_if_needed_bounded_witness :
    (waitIfNeeded initialLimiter "app_short" (fun _ => 0) (fun _ => 0)).ok =
        true ∧
    (waitIfNeeded initialLimiter "app_short" (fun _ => 0) (fun _ => 0)).checks =
        1 ∧
    (checkAt initialLimiter "app_short" (fun _ => 0)
      ((waitIfNeeded initialLimiter "app_short" (fun _ => 0)
        (fun _ => 0)).checks - 1)).1 = true := by
  have hcab : checkAllBuckets initialLimiter "app_short" 0 =
      ((true, 0), initialLimiter) := by
    norm_num +decide [checkAllBuckets, checkAppBuckets, checkLimit,
      checkBucketOnly, windowSurvivors, bucketEntries, lookupLimit,
      initialLimiter, List.lookup, evictStore]
  have hw : waitIfNeeded initialLimiter "app_short" (fun _ => 0) (fun _ => 0) =
      ⟨true, recordAllBuckets initialLimiter "app_short" 0, 1, []⟩ := by
    rw [waitIfNeeded, show RiotRateLimiter.MAX_RETRIES = 4 + 1 from rfl,
      waitIfNeededAux]
    dsimp only
    rw [hcab]
    simp
  have hok : (waitIfNeeded initialLimiter "app_short" (fun _ => 0)
      (fun _ => 0)).ok = true := by
    rw [hw]
  have hch : (waitIfNeeded initialLimiter "app_short" (fun _ => 0)
      (fun _ => 0)).checks = 1 := by
    rw [hw]
  exact ⟨hok, hch,
    ((wait_if_needed_bounded initialLimiter "app_short" (fun _ => 0)
      (fun _ => 0)).2.1 hok).1⟩

/-- A Bool membership test agrees with membership. -/
theorem contains_iff_mem {α : Type} [BEq α] [LawfulBEq α] (l : List α) (a : α) :
    l.contains a = true ↔ a ∈ l := by
  rw [List.contains]
  exact List.elem_iff

/-- Assigning an absent key appends the binding. -/
theorem dinsert_of_lookup_none {α β : Type} [BEq α] [LawfulBEq α] [DecidableEq α]
    {d : List (α × β)} {k : α} (v : β) (h : d.lookup k = none) :
    dinsert d k v = d ++ [(k, v)] := by
  induction d with
  | nil => rfl
  | cons p rest ih =>
      obtain ⟨k1, v1⟩ := p
      by_cases hk : k = k1
      · have hbeq : (k == k1) = true := beq_iff_eq.mpr hk
        simp [List.lookup, hbeq] at h
      · have hbeq : (k == k1) = false := beq_false_of_ne hk
        simp only [List.lookup, hbeq] at h
        rw [dinsert, if_neg (fun he => hk he.symm), ih h]
        rfl

/-- A key is absent from an append iff absent from both parts. -/
theorem lookup_append_none {α β : Type} [BEq α] [LawfulBEq α]
    (d e : List (α × β)) (k : α) :
    (d ++ e).lookup k = none ↔ d.lookup k = none ∧ e.lookup k = none := by
  induction d with
  | nil => simp
  | cons p rest ih =>
      obtain ⟨k1, v1⟩ := p
      by_cases hk : k = k1
      · have hbeq : (k == k1) = true := beq_iff_eq.mpr hk
        simp [List.lookup, hbeq]
      · have hbeq : (k == k1) = false := beq_false_of_ne hk
        simp only [List.cons_append, List.lookup, hbeq]
        exact ih

/-- Building a dict from rows with distinct keys is just pairing. -/
theorem foldl_dinsert_map :
    ∀ (ms : List MatchRow) (d : List (GameId × MatchRow)),
      (∀ m ∈ ms, d.lookup m.game_id = none) →
      ((ms.map (fun m => m.game_id)).Nodup) →
      ms.foldl (fun d m => dinsert d m.game_id m) d =
        d ++ ms.map (fun m => (m.game_id, m)) := by
  intro ms
  induction ms with
  | nil => intro d _ _; simp
  | cons m rest ih =>
      intro d hd hnd
      rw [List.foldl_cons,
        dinsert_of_lookup_none m (hd m (List.mem_cons_self _ _)), ih]
      · simp
      · intro m2 hm2
        rw [lookup_append_none]
        refine ⟨hd m2 (List.mem_cons_of_mem _ hm2), ?_⟩
        have hne : m2.game_id ≠ m.game_id := by
          intro he
          simp only [List.map_cons, List.nodup_cons] at hnd
          exact hnd.1 (he ▸ List.mem_map_of_mem (fun m => m.game_id) hm2)
        simp [List.lookup, beq_false_of_ne hne]
      · simp only [List.map_cons, List.nodup_cons] at hnd
        exact hnd.2

/-- dictOf on rows with distinct keys. -/
theorem dictOf_eq_map (ms : List MatchRow)
    (h : (ms.map (fun m => m.game_id)).Nodup) :
    dictOf ms = ms.map (fun m => (m.game_id, m)) := by
  rw [dictOf, foldl_dinsert_map ms [] (fun _ _ => rfl) h]
  rfl

/-- Looking a key up in a pairing dict fails iff no row carries it. -/
theorem lookup_map_pairs_none (ms : List MatchRow) (g : GameId) :
    (ms.map (fun m => (m.game_id, m))).lookup g = none ↔
      ∀ m ∈ ms, m.game_id ≠ g := by
  induction ms with
  | nil => simp
  | cons m rest ih =>
      by_cases hg : g = m.game_id
      · have hbeq : (g == m.game_id) = true := beq_iff_eq.mpr hg
        simp only [List.map_cons, List.lookup, hbeq]
        constructor
        · intro h
          cases h
        · intro h
          exact absurd hg.symm (h m (List.mem_cons_self _ _))
      · have hbeq : (g == m.game_id) = false := beq_false_of_ne hg
        simp only [List.map_cons, List.lookup, hbeq]
        rw [ih]
        constructor
        · intro h m2 hm2
          rcases List.mem_cons.mp hm2 with rfl | hm2
          · exact fun he => hg he.symm
          · exact h m2 hm2
        · intro h m2 hm2
          exact h m2 (List.mem_cons_of_mem _ hm2)

/-- A successful lookup in a pairing dict returns a row carrying the key. -/
theorem lookup_map_pairs_some {ms : List MatchRow} {g : GameId} {m : MatchRow}
    (h : (ms.map (fun m => (m.game_id, m))).lookup g = some m) :
    m ∈ ms ∧ m.game_id = g := by
  induction ms with
  | nil => cases h
  | cons m1 rest ih =>
      by_cases hg : g = m1.game_id
      · have hbeq : (g == m1.game_id) = true := beq_iff_eq.mpr hg
        simp only [List.map_cons, List.lookup, hbeq] at h
        injection h with h
        subst h
        exact ⟨List.mem_cons_self _ _, hg.symm⟩
      · have hbeq : (g == m1.game_id) = false := beq_false_of_ne hg
        simp only [List.map_cons, List.lookup, hbeq] at h
        obtain ⟨h1, h2⟩ := ih h
        exact ⟨List.mem_cons_of_mem _ h1, h2⟩

/-- A list whose keys are distinct holds at most one element per key. -/
theorem countP_key_le_one {α κ : Type} [BEq κ] [LawfulBEq κ] (f : α → κ)
    (l : List α) (h : (l.map f).Nodup) (c : κ) :
    l.countP (fun x => f x == c) ≤ 1 := by
  induction l with
  | nil => simp
  | cons a t ih =>
      simp only [List.map_cons, List.nodup_cons] at h
      rw [List.countP_cons]
      by_cases hc : (f a == c) = true
      · have hz : t.countP (fun x => f x == c) = 0 := by
          rw [List.countP_eq_zero]
          intro x hx hbeq
          apply h.1
          have : f x = f a := by
            rw [eq_of_beq hbeq, eq_of_beq hc]
          exact this ▸ List.mem_map_of_mem f hx
        rw [hz, hc]
        simp
      · rw [if_neg hc]
        simpa using ih h.2

/-- Counting an image equals counting preimages. -/
theorem count_map_eq_countP {α β : Type} [BEq β] (f : α → β) (l : List α)
    (c : β) : (l.map f).count c = l.countP (fun x => f x == c) := by
  rw [List.count, List.countP_map]
  rfl

/-- A present key stays present after appending bindings. -/
theorem lookup_append_some {α β : Type} [BEq α] (d e : List (α × β)) (k : α)
    (v : β) (h : d.lookup k = some v) : (d ++ e).lookup k = some v := by
  induction d with
  | nil => cases h
  | cons p rest ih =>
      obtain ⟨k1, v1⟩ := p
      cases hb : (k == k1) with
      | true =>
          simp only [List.lookup, hb] at h
          simp only [List.cons_append, List.lookup, hb]
          exact h
      | false =>
          simp only [List.lookup, hb] at h
          simp only [List.cons_append, List.lookup, hb]
          exact ih h

/-- The create-missing-rows loop appends exactly one fresh shell row per
distinct id that is absent from the dict, with consecutive fresh primary
keys, and touches nothing else. -/
theorem buildMatches_spec :
    ∀ (gs : List GameId) (dict : List (GameId × MatchRow)) (acc : List MatchRow)
      (nid : ℕ),
      (∀ p ∈ dict, p.2.game_id = p.1) →
      ∃ fresh : List MatchRow,
        buildMatches dict acc nid gs =
          (dict ++ fresh.map (fun m => (m.game_id, m)), acc ++ fresh,
           nid + fresh.length) ∧
        (∀ m ∈ fresh, dict.lookup m.game_id = none ∧ m.game_id ∈ gs ∧
          m.game_info = none ∧ nid ≤ m.id ∧ m.id < nid + fresh.length) ∧
        ((fresh.map (fun m => m.game_id)).Nodup) ∧
        ((fresh.map (fun m => m.id)).Nodup) ∧
        (∀ g ∈ gs, (fresh.countP (fun m => m.game_id == g)) =
          if (dict.lookup g).isSome then 0 else 1) ∧
        ((∀ g ∈ gs, (dict.lookup g).isSome) → fresh = []) := by
  intro gs
  induction gs with
  | nil =>
      intro dict acc nid _
      refine ⟨[], by simp [buildMatches], ?_, by simp, by simp, ?_, fun _ => rfl⟩
      · intro m hm
        cases hm
      · intro g hg
        cases hg
  | cons g rest ih =>
      intro dict acc nid hcons
      cases hlk : dict.lookup g with
      | some m1 =>
          obtain ⟨fresh, hbm, hper, hnd1, hnd2, hcnt, hall⟩ := ih dict acc nid hcons
          refine ⟨fresh, ?_, ?_, hnd1, hnd2, ?_, ?_⟩
          · rw [buildMatches, hlk]
            exact hbm
          · intro m hm
            obtain ⟨h1, h2, h3, h4, h5⟩ := hper m hm
            exact ⟨h1, List.mem_cons_of_mem _ h2, h3, h4, h5⟩
          · intro g2 hg2
            rcases List.mem_cons.mp hg2 with rfl | hg2
            · rw [hlk]
              simp only [Option.isSome_some, if_true]
              rw [List.countP_eq_zero]
              intro m hm hbeq
              have hgm := (hper m hm).1
              rw [eq_of_beq hbeq, hlk] at hgm
              cases hgm
            · exact hcnt g2 hg2
          · intro hforall
            exact hall (fun g2 hg2 => hforall g2 (List.mem_cons_of_mem _ hg2))
      | none =>
          have hdin : dinsert dict g (⟨nid, g, none, none⟩ : MatchRow) =
              dict ++ [(g, ⟨nid, g, none, none⟩)] :=
            dinsert_of_lookup_none _ hlk
          have hcons2 : ∀ p ∈ dict ++ [(g, (⟨nid, g, none, none⟩ : MatchRow))],
              p.2.game_id = p.1 := by
            intro p hp
            rcases List.mem_append.mp hp with hp | hp
            · exact hcons p hp
            · rw [List.mem_singleton.mp hp]
          obtain ⟨fresh, hbm, hper, hnd1, hnd2, hcnt, hall⟩ :=
            ih (dict ++ [(g, ⟨nid, g, none, none⟩)]) (acc ++ [⟨nid, g, none, none⟩])
              (nid + 1) hcons2
          have hne_g : ∀ m ∈ fresh, m.game_id ≠ g := by
            intro m hm he
            have h1 := (hper m hm).1
            rw [lookup_append_none] at h1
            have := h1.2
            rw [he] at this
            simp [List.lookup] at this
          refine ⟨⟨nid, g, none, none⟩ :: fresh, ?_, ?_, ?_, ?_, ?_, ?_⟩
          · rw [buildMatches, hlk]
            dsimp only
            rw [hdin, hbm]
            simp only [List.map_cons, List.append_assoc, List.singleton_append,
              List.cons_append, List.length_cons, Prod.mk.injEq]
            refine ⟨rfl, rfl, by omega⟩
          · intro m hm
            rcases List.mem_cons.mp hm with rfl | hm
            · exact ⟨hlk, List.mem_cons_self _ _, rfl, le_refl _, by
                simp only [List.length_cons]
                omega⟩
            · obtain ⟨h1, h2, h3, h4, h5⟩ := hper m hm
              rw [lookup_append_none] at h1
              refine ⟨h1.1, List.mem_cons_of_mem _ h2, h3, by omega, ?_⟩
              simp only [List.length_cons]
              omega
          · simp only [List.map_cons, List.nodup_cons]
            refine ⟨?_, hnd1⟩
            intro hmem
            obtain ⟨m, hm, hgm⟩ := List.mem_map.mp hmem
            exact hne_g m hm hgm
          · simp only [List.map_cons, List.nodup_cons]
            refine ⟨?_, hnd2⟩
            intro hmem
            obtain ⟨m, hm, hgm⟩ := List.mem_map.mp hmem
            have := (hper m hm).2.2.2.1
            omega
          · intro g2 hg2
            rcases List.mem_cons.mp hg2 with rfl | hg2
            · rw [hlk]
              simp only [Option.isSome_none, Bool.false_eq_true, if_false]
              rw [List.countP_cons]
              have hz : fresh.countP (fun m => m.game_id == g2) = 0 := by
                rw [List.countP_eq_zero]
                intro m hm hbeq
                exact hne_g m hm (eq_of_beq hbeq)
              rw [hz]
              simp
            · rw [List.countP_cons]
              by_cases hgg : g2 = g
              · subst hgg
                rw [hlk]
                simp only [Option.isSome_none, Bool.false_eq_true, if_false]
                have hz : fresh.countP (fun m => m.game_id == g2) = 0 := by
                  rw [List.countP_eq_zero]
                  intro m hm hbeq
                  exact hne_g m hm (eq_of_beq hbeq)
                rw [hz]
                simp
              · have hm_not : ((⟨nid, g, none, none⟩ : MatchRow).game_id == g2) =
                    false := beq_false_of_ne (fun he => hgg he.symm)
                rw [hm_not]
                simp only [Bool.false_eq_true, if_false, Nat.add_zero]
                rw [hcnt g2 hg2]
                cases hd2 : dict.lookup g2 with
                | some v =>
                    rw [lookup_append_some dict _ g2 v hd2]
                | none =>
                    have happ : (dict ++ [(g, (⟨nid, g, none, none⟩ : MatchRow))]).lookup
                        g2 = none := by
                      rw [lookup_append_none]
                      refine ⟨hd2, ?_⟩
                      simp [List.lookup, beq_false_of_ne hgg]
                    rw [happ]
          · intro hforall
            have := hforall g (List.mem_cons_self _ _)
            rw [hlk] at this
            cases this

/-- The link-creation loop links exactly the dict rows whose id is not yet
linked, in dict order, and returns their number. -/
theorem buildLinks_spec (account : ℕ) (already : List ℕ) :
    ∀ dict : List (GameId × MatchRow),
      buildLinks account already dict =
        ((dict.filter (fun p => !already.contains p.2.id)).map
          (fun p => (account, p.2.id)),
         (dict.filter (fun p => !already.contains p.2.id)).length) := by
  intro dict
  induction dict with
  | nil => rfl
  | cons p rest ih =>
      obtain ⟨k, m⟩ := p
      rw [buildLinks]
      by_cases hm : m.id ∈ already
      · have hc : already.contains m.id = true := (contains_iff_mem _ _).mpr hm
        rw [hc]
        simp [List.filter_cons, hm, ih]
      · have hc : already.contains m.id = false := by
          cases h2 : already.contains m.id with
          | true => exact absurd ((contains_iff_mem _ _).mp h2) hm
          | false => rfl
        rw [hc]
        simp [List.filter_cons, hm, ih]

/-- An id drawn from allIds is in the already-linked set exactly when the
account-to-id link row exists. -/
theorem already_contains_iff (links : List (ℕ × ℕ)) (account : ℕ)
    (allIds : List ℕ) (x : ℕ) (hx : x ∈ allIds) :
    (((links.filter (fun l => l.1 == account && allIds.contains l.2)).map
      (fun l => l.2)).contains x = true) ↔ (account, x) ∈ links := by
  rw [contains_iff_mem]
  constructor
  · intro h
    obtain ⟨l, hl, hlx⟩ := List.mem_map.mp h
    have hf := List.mem_filter.mp hl
    have hacc : l.1 = account := by
      have := hf.2
      simp only [Bool.and_eq_true, beq_iff_eq] at this
      exact this.1
    have : l = (account, x) := by
      obtain ⟨a, b⟩ := l
      simp only at hacc hlx
      rw [hacc, hlx]
    exact this ▸ hf.1
  · intro h
    apply List.mem_map.mpr
    refine ⟨(account, x), ?_, rfl⟩
    apply List.mem_filter.mpr
    refine ⟨h, ?_⟩
    simp only [Bool.and_eq_true, beq_iff_eq]
    exact ⟨trivial, (contains_iff_mem _ _).mpr hx⟩

/-- One run of the upsert, with the batch-read dict, the created rows, the
already-linked set and the filtered link set abstracted by equations. -/
theorem upsert_eq (db : DB) (account : ℕ) (ids : List GameId)
    (hne : ids.isEmpty = false) (dict1 : List (GameId × MatchRow))
    (fresh : List MatchRow) (nid : ℕ)
    (hb : buildMatches (dictOf (db.rows.filter (fun m => ids.contains m.game_id)))
      [] db.nextId ids = (dict1, fresh, nid))
    (already : List ℕ)
    (ha : (db.links.filter (fun l => l.1 == account &&
      (dict1.map (fun p => p.2.id)).contains l.2)).map (fun l => l.2) = already)
    (filt : List (GameId × MatchRow))
    (hf : dict1.filter (fun p => !(already.contains p.2.id)) = filt) :
    upsertMatchesForRiotAccount db account ids =
      (⟨db.rows ++ fresh, db.links ++ filt.map (fun p => (account, p.2.id)), nid⟩,
       filt.length) := by
  simp only [upsertMatchesForRiotAccount, hne, Bool.false_eq_true, if_false]
  rw [hb]
  dsimp only
  rw [ha, buildLinks_spec, hf]

/-- A list without duplicates counts every element at most once, for any
lawful boolean equality. -/
theorem count_le_one_of_nodup {α : Type} [BEq α] [LawfulBEq α] (l : List α)
    (h : l.Nodup) (a : α) : l.count a ≤ 1 :=
  countP_key_le_one (fun x => x) l (by simpa using h) a

/-- After one upsert run, every id carried by a dict row is linked to the
account exactly once: the old link is kept and no duplicate is created, or a
single new link is created. -/
theorem link_count_one (links : List (ℕ × ℕ)) (account : ℕ)
    (dict : List (GameId × MatchRow)) (x : ℕ)
    (hnd : links.Nodup)
    (hidnd : (dict.map (fun p => p.2.id)).Nodup)
    (hx : ∃ p ∈ dict, p.2.id = x) :
    (links ++ (dict.filter (fun p =>
      !((((links.filter (fun l => l.1 == account &&
        ((dict.map (fun p => p.2.id)).contains l.2))).map (fun l => l.2)).contains
        p.2.id)))).map (fun p => (account, p.2.id))).count (account, x) = 1 := by
  obtain ⟨p0, hp0, hp0x⟩ := hx
  have hxAll : x ∈ dict.map (fun p => p.2.id) := by
    rw [← hp0x]
    exact List.mem_map_of_mem _ hp0
  have halready := already_contains_iff links account
    (dict.map (fun p => p.2.id)) x hxAll
  rw [List.count_append]
  by_cases hmem : (account, x) ∈ links
  · have hc1 : links.count (account, x) = 1 :=
      le_antisymm (count_le_one_of_nodup links hnd _)
        (List.count_pos_iff.mpr hmem)
    have hc2 : ((dict.filter (fun p =>
        !((((links.filter (fun l => l.1 == account &&
          ((dict.map (fun p => p.2.id)).contains l.2))).map (fun l => l.2)).contains
          p.2.id)))).map (fun p => (account, p.2.id))).count (account, x) = 0 := by
      rw [List.count_eq_zero]
      intro hc
      obtain ⟨p, hp, hpe⟩ := List.mem_map.mp hc
      have hpid : p.2.id = x := by
        have := congrArg Prod.snd hpe
        simpa using this
      have hpf := List.mem_filter.mp hp
      have hcontains : (((links.filter (fun l => l.1 == account &&
          ((dict.map (fun p => p.2.id)).contains l.2))).map (fun l => l.2)).contains
          p.2.id) = false := by
        cases h2 : (((links.filter (fun l => l.1 == account &&
            ((dict.map (fun p => p.2.id)).contains l.2))).map (fun l => l.2)).contains
            p.2.id) with
        | true =>
            have := hpf.2
            rw [h2] at this
            cases this
        | false => rfl
      rw [hpid] at hcontains
      have htrue := halready.mpr hmem
      rw [hcontains] at htrue
      cases htrue
    rw [hc1, hc2]
  · have hc1 : links.count (account, x) = 0 := List.count_eq_zero.mpr hmem
    have hcontains : (((links.filter (fun l => l.1 == account &&
        ((dict.map (fun p => p.2.id)).contains l.2))).map (fun l => l.2)).contains
        x) = false := by
      cases h2 : (((links.filter (fun l => l.1 == account &&
          ((dict.map (fun p => p.2.id)).contains l.2))).map (fun l => l.2)).contains
          x) with
      | true => exact absurd (halready.mp h2) hmem
      | false => rfl
    have hc2 : ((dict.filter (fun p =>
        !((((links.filter (fun l => l.1 == account &&
          ((dict.map (fun p => p.2.id)).contains l.2))).map (fun l => l.2)).contains
          p.2.id)))).map (fun p => (account, p.2.id))).count (account, x) = 1 := by
      rw [count_map_eq_countP, List.countP_filter]
      have hcong : dict.countP (fun p =>
          ((account, p.2.id) == (account, x)) &&
          !((((links.filter (fun l => l.1 == account &&
            ((dict.map (fun p => p.2.id)).contains l.2))).map (fun l => l.2)).contains
            p.2.id))) = dict.countP (fun p => p.2.id == x) := by
        apply List.countP_congr
        intro p hp
        simp only [Bool.and_eq_true, beq_iff_eq, Prod.mk.injEq, true_and,
          Bool.not_eq_true]
        constructor
        · intro h2
          exact h2.1
        · intro h2
          refine ⟨h2, ?_⟩
          rw [h2, hcontains]
          rfl
      rw [hcong]
      have hle := countP_key_le_one (fun p => p.2.id) dict hidnd x
      have hpos : 0 < dict.countP (fun p => p.2.id == x) :=
        List.countP_pos_iff.mpr ⟨p0, hp0, beq_iff_eq.mpr hp0x⟩
      omega
    rw [hc1, hc2]

/-- When every dict row's id is already linked to the account, the second
link pass selects nothing. -/
theorem second_filter_nil (links newL : List (ℕ × ℕ)) (account : ℕ)
    (dict : List (GameId × MatchRow))
    (hsub : ∀ p ∈ dict, (account, p.2.id) ∈ links ++ newL) :
    dict.filter (fun p =>
      !(((((links ++ newL).filter (fun l => l.1 == account &&
        ((dict.map (fun p => p.2.id)).contains l.2))).map (fun l => l.2)).contains
        p.2.id))) = [] := by
  rw [List.filter_eq_nil_iff]
  intro p hp
  have hxAll : p.2.id ∈ dict.map (fun p => p.2.id) :=
    List.mem_map_of_mem _ hp
  have htrue := (already_contains_iff (links ++ newL) account
    (dict.map (fun p => p.2.id)) p.2.id hxAll).mpr (hsub p hp)
  rw [htrue]
  intro hcontra
  cases hcontra

/-- After the link pass, every dict row's id is linked to the account: either
it was already linked, or the pass just created the link. -/
theorem dict_all_linked (links : List (ℕ × ℕ)) (account : ℕ)
    (dict : List (GameId × MatchRow)) :
    ∀ p ∈ dict, (account, p.2.id) ∈ links ++
      ((dict.filter (fun p => !(((links.filter (fun l => l.1 == account &&
        ((dict.map (fun p => p.2.id)).contains l.2))).map (fun l => l.2)).contains
        p.2.id))).map (fun p => (account, p.2.id))) := by
  intro p hp
  by_cases hmem : (((links.filter (fun l => l.1 == account &&
      ((dict.map (fun p => p.2.id)).contains l.2))).map (fun l => l.2)).contains
      p.2.id) = true
  · have hxAll : p.2.id ∈ dict.map (fun p => p.2.id) := List.mem_map_of_mem _ hp
    exact List.mem_append.mpr (Or.inl
      ((already_contains_iff links account (dict.map (fun p => p.2.id)) p.2.id
        hxAll).mp hmem))
  · have hfalse : (((links.filter (fun l => l.1 == account &&
        ((dict.map (fun p => p.2.id)).contains l.2))).map (fun l => l.2)).contains
        p.2.id) = false := by
      cases h2 : (((links.filter (fun l => l.1 == account &&
          ((dict.map (fun p => p.2.id)).contains l.2))).map (fun l => l.2)).contains
          p.2.id) with
      | true => exact absurd h2 hmem
      | false => rfl
    refine List.mem_append.mpr (Or.inr ?_)
    refine List.mem_map.mpr ⟨p, List.mem_filter.mpr ⟨hp, ?_⟩, rfl⟩
    rw [hfalse]
    rfl

/-- C3: upsert_matches_for_riot_account is an idempotent upsert. Under the
schema invariants, after one call there is exactly one match row per
requested game_id and exactly one account-match link per (account, game_id)
pair, and a second call with the same account and id list changes nothing
and reports 0 new links. -/
theorem upsert_matches_idempotent (db db1 : DB) (account : ℕ)
    (ids : List GameId) (n1 : ℕ) (hinv : DBinv db)
    (h1 : upsertMatchesForRiotAccount db account ids = (db1, n1)) :
    (∀ g ∈ ids, db1.rows.countP (fun m => m.game_id == g) = 1) ∧
    (∀ g ∈ ids, ∃ m ∈ db1.rows, m.game_id = g ∧
      db1.links.count (account, m.id) = 1) ∧
    upsertMatchesForRiotAccount db1 account ids = (db1, 0) := by
  by_cases hids : ids = []
  · subst hids
    have he : upsertMatchesForRiotAccount db account [] = (db, 0) := rfl
    rw [he] at h1
    injection h1 with hdb hn
    subst hdb
    exact ⟨by simp, by simp, he⟩
  · have hne : ids.isEmpty = false := by
      cases ids with
      | nil => exact absurd rfl hids
      | cons a t => rfl
    have hEnd : ((db.rows.filter (fun m => ids.contains m.game_id)).map
        (fun m => m.game_id)).Nodup :=
      hinv.1.sublist ((List.filter_sublist _).map _)
    have hEidnd : ((db.rows.filter (fun m => ids.contains m.game_id)).map
        (fun m => m.id)).Nodup :=
      hinv.2.1.sublist ((List.filter_sublist _).map _)
    have hEidlt : ∀ m ∈ db.rows.filter (fun m => ids.contains m.game_id),
        m.id < db.nextId :=
      fun m hm => hinv.2.2.2.1 m (List.mem_filter.mp hm).1
    have hdictOf : dictOf (db.rows.filter (fun m => ids.contains m.game_id)) =
        (db.rows.filter (fun m => ids.contains m.game_id)).map
          (fun m => (m.game_id, m)) :=
      dictOf_eq_map _ hEnd
    have hconsE : ∀ p ∈ (db.rows.filter (fun m => ids.contains m.game_id)).map
        (fun m => (m.game_id, m)), p.2.game_id = p.1 := by
      intro p hp
      obtain ⟨m, _, rfl⟩ := List.mem_map.mp hp
      rfl
    obtain ⟨fresh, hbm, hper, hgnd, hind, hcnt, hnoop⟩ :=
      buildMatches_spec ids
        ((db.rows.filter (fun m => ids.contains m.game_id)).map
          (fun m => (m.game_id, m))) [] db.nextId hconsE
    rw [List.nil_append] at hbm
    have hfreshge : ∀ m ∈ fresh, db.nextId ≤ m.id :=
      fun m hm => (hper m hm).2.2.2.1
    have hcnt_some : ∀ g ∈ ids, ∀ m,
        ((db.rows.filter (fun m => ids.contains m.game_id)).map
          (fun m => (m.game_id, m))).lookup g = some m →
        fresh.countP (fun m => m.game_id == g) = 0 := by
      intro g hg m hlk
      have h1c := hcnt g hg
      rw [hlk] at h1c
      simpa using h1c
    have hcnt_none : ∀ g ∈ ids,
        ((db.rows.filter (fun m => ids.contains m.game_id)).map
          (fun m => (m.game_id, m))).lookup g = none →
        fresh.countP (fun m => m.game_id == g) = 1 := by
      intro g hg hlk
      have h1c := hcnt g hg
      rw [hlk] at h1c
      simpa using h1c
    obtain ⟨D, hD⟩ : ∃ d,
        ((db.rows.filter (fun m => ids.contains m.game_id)).map
          (fun m => (m.game_id, m)) ++ fresh.map (fun m => (m.game_id, m))) = d :=
      ⟨_, rfl⟩
    rw [hD] at hbm
    have hb1 : buildMatches
        (dictOf (db.rows.filter (fun m => ids.contains m.game_id))) []
        db.nextId ids = (D, fresh, db.nextId + fresh.length) := by
      rw [hdictOf]
      exact hbm
    obtain ⟨already1, hal1⟩ : ∃ a,
        (db.links.filter (fun l => l.1 == account &&
          ((D.map (fun p => p.2.id)).contains l.2))).map (fun l => l.2) = a :=
      ⟨_, rfl⟩
    obtain ⟨filt1, hfl1⟩ : ∃ f,
        D.filter (fun p => !(already1.contains p.2.id)) = f := ⟨_, rfl⟩
    have hr1 := upsert_eq db account ids hne D fresh
      (db.nextId + fresh.length) hb1 already1 hal1 filt1 hfl1
    rw [hr1] at h1
    injection h1 with hdb1 hn1
    subst hdb1
    have hallnd : (D.map (fun p => p.2.id)).Nodup := by
      rw [← hD, List.map_append, List.map_map, List.map_map]
      apply List.nodup_append.mpr
      refine ⟨hEidnd, hind, ?_⟩
      intro a ha hb
      obtain ⟨mE, hmE, hmEa⟩ := List.mem_map.mp ha
      obtain ⟨mF, hmF, hmFa⟩ := List.mem_map.mp hb
      have h1a : mE.id = a := hmEa
      have h2a : mF.id = a := hmFa
      have h3a := hEidlt mE hmE
      have h4a := hfreshge mF hmF
      omega
    have hrow : ∀ g ∈ ids, ∃ m, (m ∈ db.rows ++ fresh) ∧ m.game_id = g ∧
        (m.game_id, m) ∈ D := by
      intro g hg
      cases hlk : ((db.rows.filter (fun m => ids.contains m.game_id)).map
          (fun m => (m.game_id, m))).lookup g with
      | some m =>
          obtain ⟨hmE, hmg⟩ := lookup_map_pairs_some hlk
          refine ⟨m, List.mem_append.mpr (Or.inl (List.mem_filter.mp hmE).1),
            hmg, ?_⟩
          rw [← hD]
          exact List.mem_append.mpr (Or.inl (List.mem_map_of_mem _ hmE))
      | none =>
          have h1c := hcnt_none g hg hlk
          have hpos : 0 < fresh.countP (fun m => m.game_id == g) := by omega
          obtain ⟨m, hm, hbeq⟩ := List.countP_pos_iff.mp hpos
          refine ⟨m, List.mem_append.mpr (Or.inr hm), eq_of_beq hbeq, ?_⟩
          rw [← hD]
          exact List.mem_append.mpr (Or.inr (List.mem_map_of_mem _ hm))
    refine ⟨?_, ?_, ?_⟩
    · dsimp only
      intro g hg
      rw [List.countP_append]
      cases hlk : ((db.rows.filter (fun m => ids.contains m.game_id)).map
          (fun m => (m.game_id, m))).lookup g with
      | some m =>
          have h1c := hcnt_some g hg m hlk
          obtain ⟨hmE, hmg⟩ := lookup_map_pairs_some hlk
          have hmdb : m ∈ db.rows := (List.mem_filter.mp hmE).1
          have hle := countP_key_le_one (fun m => m.game_id) db.rows hinv.1 g
          have hpos : 0 < db.rows.countP (fun m => m.game_id == g) :=
            List.countP_pos_iff.mpr ⟨m, hmdb, beq_iff_eq.mpr hmg⟩
          omega
      | none =>
          have h1c := hcnt_none g hg hlk
          have hz : db.rows.countP (fun m => m.game_id == g) = 0 := by
            rw [List.countP_eq_zero]
            intro m hm hbeq
            have hmg : m.game_id = g := eq_of_beq hbeq
            have hnone := (lookup_map_pairs_none _ g).mp hlk
            refine hnone m ?_ hmg
            refine List.mem_filter.mpr ⟨hm, ?_⟩
            rw [hmg]
            exact (contains_iff_mem _ _).mpr hg
          omega
    · dsimp only
      intro g hg
      obtain ⟨m, hmrows, hmg, hmdict⟩ := hrow g hg
      refine ⟨m, hmrows, hmg, ?_⟩
      have hc := link_count_one db.links account D m.id hinv.2.2.1 hallnd
        ⟨(m.game_id, m), hmdict, rfl⟩
      simp only [hal1, hfl1] at hc
      exact hc
    · have hff : fresh.filter (fun m => ids.contains m.game_id) = fresh :=
        List.filter_eq_self.mpr
          (fun m hm => (contains_iff_mem _ _).mpr ((hper m hm).2.1))
      have hE2 : (db.rows ++ fresh).filter (fun m => ids.contains m.game_id) =
          db.rows.filter (fun m => ids.contains m.game_id) ++ fresh := by
        rw [List.filter_append, hff]
      have hE2nd : (((db.rows.filter (fun m => ids.contains m.game_id)) ++
          fresh).map (fun m => m.game_id)).Nodup := by
        rw [List.map_append]
        apply List.nodup_append.mpr
        refine ⟨hEnd, hgnd, ?_⟩
        intro a ha hb
        obtain ⟨mE, hmE, hmEa⟩ := List.mem_map.mp ha
        obtain ⟨mF, hmF, hmFa⟩ := List.mem_map.mp hb
        have hnoneF := (hper mF hmF).1
        have hforall := (lookup_map_pairs_none _ mF.game_id).mp hnoneF
        exact hforall mE hmE (by rw [hmEa, hmFa])
      have hcons2 : ∀ p ∈ D, p.2.game_id = p.1 := by
        intro p hp
        rw [← hD] at hp
        rcases List.mem_append.mp hp with h | h
        · obtain ⟨m, _, rfl⟩ := List.mem_map.mp h
          rfl
        · obtain ⟨m, _, rfl⟩ := List.mem_map.mp h
          rfl
      have hsome : ∀ g ∈ ids, ((D.lookup g).isSome) = true := by
        intro g hg
        cases hlk : D.lookup g with
        | some m => rfl
        | none =>
            rw [← hD, lookup_append_none] at hlk
            obtain ⟨hlkE, hlkF⟩ := hlk
            have hforall := (lookup_map_pairs_none fresh g).mp hlkF
            have h1c := hcnt_none g hg hlkE
            have hpos : 0 < fresh.countP (fun m => m.game_id == g) := by omega
            obtain ⟨m, hm, hbeq⟩ := List.countP_pos_iff.mp hpos
            exact absurd (eq_of_beq hbeq) (hforall m hm)
      obtain ⟨fresh2, hbm2, hper2, hgnd2, hind2, hcnt2, hnoop2⟩ :=
        buildMatches_spec ids D [] (db.nextId + fresh.length) hcons2
      have hf2nil : fresh2 = [] := hnoop2 hsome
      subst hf2nil
      simp only [List.map_nil, List.append_nil, List.nil_append,
        List.length_nil, Nat.add_zero] at hbm2
      have hb2 : buildMatches
          (dictOf ((db.rows ++ fresh).filter (fun m => ids.contains m.game_id)))
          [] (db.nextId + fresh.length) ids =
          (D, [], db.nextId + fresh.length) := by
        rw [hE2, dictOf_eq_map _ hE2nd, List.map_append, hD]
        exact hbm2
      have hsub2 := dict_all_linked db.links account D
      simp only [hal1, hfl1] at hsub2
      have hfilt2 := second_filter_nil db.links
        (filt1.map (fun p => (account, p.2.id))) account D hsub2
      obtain ⟨already2, hal2⟩ : ∃ a,
          ((db.links ++ filt1.map (fun p => (account, p.2.id))).filter
            (fun l => l.1 == account &&
              ((D.map (fun p => p.2.id)).contains l.2))).map (fun l => l.2) = a :=
        ⟨_, rfl⟩
      simp only [hal2] at hfilt2
      have hr2 := upsert_eq
        ⟨db.rows ++ fresh, db.links ++ filt1.map (fun p => (account, p.2.id)),
          db.nextId + fresh.length⟩ account ids hne D []
        (db.nextId + fresh.length) hb2 already2 hal2 [] hfilt2
      rw [hr2]
      simp

/-- C3 witness: on an empty store, upserting two ids for account 7 creates
two rows and two links, and the theorem yields one row and one link per id
plus an unchanged second call. -/
theorem upsert_matches_idempotent_witness :
    (DBinv (DB.mk [] [] 0) ∧
      upsertMatchesForRiotAccount (DB.mk [] [] 0) 7
        [['N','A','1','_','1'], ['N','A','1','_','2']] =
        (DB.mk [MatchRow.mk 0 ['N','A','1','_','1'] none none,
                MatchRow.mk 1 ['N','A','1','_','2'] none none]
          [(7, 0), (7, 1)] 2, 2)) ∧
    ((∀ g ∈ ([['N','A','1','_','1'], ['N','A','1','_','2']] : List GameId),
      (DB.mk [MatchRow.mk 0 ['N','A','1','_','1'] none none,
              MatchRow.mk 1 ['N','A','1','_','2'] none none]
        [(7, 0), (7, 1)] 2).rows.countP (fun m => m.game_id == g) = 1) ∧
    (∀ g ∈ ([['N','A','1','_','1'], ['N','A','1','_','2']] : List GameId),
      ∃ m ∈ (DB.mk [MatchRow.mk 0 ['N','A','1','_','1'] none none,
              MatchRow.mk 1 ['N','A','1','_','2'] none none]
        [(7, 0), (7, 1)] 2).rows, m.game_id = g ∧
      (DB.mk [MatchRow.mk 0 ['N','A','1','_','1'] none none,
              MatchRow.mk 1 ['N','A','1','_','2'] none none]
        [(7, 0), (7, 1)] 2).links.count (7, m.id) = 1) ∧
    upsertMatchesForRiotAccount
      (DB.mk [MatchRow.mk 0 ['N','A','1','_','1'] none none,
              MatchRow.mk 1 ['N','A','1','_','2'] none none]
        [(7, 0), (7, 1)] 2) 7
      [['N','A','1','_','1'], ['N','A','1','_','2']] =
      (DB.mk [MatchRow.mk 0 ['N','A','1','_','1'] none none,
              MatchRow.mk 1 ['N','A','1','_','2'] none none]
        [(7, 0), (7, 1)] 2, 0)) :=
  ⟨⟨by decide, by decide⟩,
   upsert_matches_idempotent (DB.mk [] [] 0)
     (DB.mk [MatchRow.mk 0 ['N','A','1','_','1'] none none,
             MatchRow.mk 1 ['N','A','1','_','2'] none none]
       [(7, 0), (7, 1)] 2) 7
     [['N','A','1','_','1'], ['N','A','1','_','2']] 2
     (by decide) (by decide)⟩

/-- C8: the upsert has no handler for a uniqueness violation. When a
concurrent writer commits the same game_id between the batch select and the
flush, the IntegrityError propagates to the caller (error branch) instead of
being caught with a fallback read; the same run without the race succeeds. -/
theorem upsert_race_propagates :
    upsertMatchesRace (DB.mk [] [] 0)
      (MatchRow.mk 100 ['N','A','1','_','1'] none none) 7
      [['N','A','1','_','1']] = Except.error () ∧
    upsertMatchesForRiotAccount (DB.mk [] [] 0) 7 [['N','A','1','_','1']] =
      (DB.mk [MatchRow.mk 0 ['N','A','1','_','1'] none none] [(7, 0)] 1, 1) :=
  ⟨by decide, by decide⟩
